import Mathlib

/-!
Verification of the thaumcraft-research-solver repository.

The development shallowly embeds the Rust sources (`src/aspect.rs`,
`src/graph.rs`, `src/solver.rs`) into Lean:

* `Aspect` mirrors the 65-variant enum of `aspect.rs`, together with
  `display_name`, `key`, `get_by_key` and `from_str_fuzzy`.  The
  floating-point similarity score of the `strsim` crate
  (`normalized_levenshtein`) is modelled exactly over `ℚ`; Rust's
  ASCII-case-folding comparisons are modelled character-wise.
* `NValue`/`NBlob` model the decoded NBT structure consumed by
  `AspectInventory::from_nbt`; hash maps are modelled as association
  lists whose `insert` overwrites the binding of an existing key,
  matching `HashMap::insert` semantics.
* `AGraph` models `Graph<Aspect>` of `graph.rs` as an association list
  from node to neighbour set (a duplicate-free list).
* `solveLoop` models the `while let` loop of
  `Solver::find_paths_with_length` in `solver.rs`: `u8` fields are
  `Fin 256` (so `distance + 1` wraps like release-mode Rust), and the
  `u32` cost accumulation reduces modulo `2^32`.
-/

set_option maxHeartbeats 2000000
set_option maxRecDepth 10000

inductive Aspect where
  | Aer
  | Alienis
  | Aqua
  | Arbor
  | Auram
  | Bestia
  | Caelum
  | Cognitio
  | Corpus
  | Desidia
  | Electrum
  | Exanimis
  | Fabrico
  | Fames
  | Gelum
  | Gloria
  | Gula
  | Herba
  | Humanus
  | Ignis
  | Infernus
  | Instrumentum
  | Invidia
  | Ira
  | Iter
  | Limus
  | Lucrum
  | Lux
  | Luxuria
  | Machina
  | Magneto
  | Messis
  | Metallum
  | Meto
  | Mortuus
  | Motus
  | Nebrisum
  | Ordo
  | Pannus
  | Perditio
  | Perfodio
  | Permutatio
  | Potentia
  | Praecantatio
  | Primordium
  | Radio
  | Sano
  | Sensus
  | Spiritus
  | Strontio
  | Superbia
  | Tabernus
  | Telum
  | Tempestas
  | Tempus
  | Tenebrae
  | Terra
  | Tutamen
  | Vacuos
  | Venenum
  | Victus
  | Vinculum
  | Vitium
  | Vitreus
  | Volatus
deriving DecidableEq, Repr, Fintype

/-- The fixed enumeration order of `Aspect::values()` in `aspect.rs`. -/
def Aspect.values : List Aspect :=
  [.Aer, .Alienis, .Aqua, .Arbor, .Auram, .Bestia, .Caelum, .Cognitio,
   .Corpus, .Desidia, .Electrum, .Exanimis, .Fabrico, .Fames, .Gelum,
   .Gloria, .Gula, .Herba, .Humanus, .Ignis, .Infernus, .Instrumentum,
   .Invidia, .Ira, .Iter, .Limus, .Lucrum, .Lux, .Luxuria, .Machina,
   .Magneto, .Messis, .Metallum, .Meto, .Mortuus, .Motus, .Nebrisum,
   .Ordo, .Pannus, .Perditio, .Perfodio, .Permutatio, .Potentia,
   .Praecantatio, .Primordium, .Radio, .Sano, .Sensus, .Spiritus,
   .Strontio, .Superbia, .Tabernus, .Telum, .Tempestas, .Tempus,
   .Tenebrae, .Terra, .Tutamen, .Vacuos, .Venenum, .Victus, .Vinculum,
   .Vitium, .Vitreus, .Volatus]

/-- `Aspect::display_name`: the `Debug` representation of the variant,
lowercased (`format!("{:?}", self).to_lowercase()`). -/
def Aspect.display_name : Aspect → String
  | .Aer => "aer"
  | .Alienis => "alienis"
  | .Aqua => "aqua"
  | .Arbor => "arbor"
  | .Auram => "auram"
  | .Bestia => "bestia"
  | .Caelum => "caelum"
  | .Cognitio => "cognitio"
  | .Corpus => "corpus"
  | .Desidia => "desidia"
  | .Electrum => "electrum"
  | .Exanimis => "exanimis"
  | .Fabrico => "fabrico"
  | .Fames => "fames"
  | .Gelum => "gelum"
  | .Gloria => "gloria"
  | .Gula => "gula"
  | .Herba => "herba"
  | .Humanus => "humanus"
  | .Ignis => "ignis"
  | .Infernus => "infernus"
  | .Instrumentum => "instrumentum"
  | .Invidia => "invidia"
  | .Ira => "ira"
  | .Iter => "iter"
  | .Limus => "limus"
  | .Lucrum => "lucrum"
  | .Lux => "lux"
  | .Luxuria => "luxuria"
  | .Machina => "machina"
  | .Magneto => "magneto"
  | .Messis => "messis"
  | .Metallum => "metallum"
  | .Meto => "meto"
  | .Mortuus => "mortuus"
  | .Motus => "motus"
  | .Nebrisum => "nebrisum"
  | .Ordo => "ordo"
  | .Pannus => "pannus"
  | .Perditio => "perditio"
  | .Perfodio => "perfodio"
  | .Permutatio => "permutatio"
  | .Potentia => "potentia"
  | .Praecantatio => "praecantatio"
  | .Primordium => "primordium"
  | .Radio => "radio"
  | .Sano => "sano"
  | .Sensus => "sensus"
  | .Spiritus => "spiritus"
  | .Strontio => "strontio"
  | .Superbia => "superbia"
  | .Tabernus => "tabernus"
  | .Telum => "telum"
  | .Tempestas => "tempestas"
  | .Tempus => "tempus"
  | .Tenebrae => "tenebrae"
  | .Terra => "terra"
  | .Tutamen => "tutamen"
  | .Vacuos => "vacuos"
  | .Venenum => "venenum"
  | .Victus => "victus"
  | .Vinculum => "vinculum"
  | .Vitium => "vitium"
  | .Vitreus => "vitreus"
  | .Volatus => "volatus"

/-- `Aspect::key`: the serialization key; two variants use fixed
override keys, all others use their display name. -/
def Aspect.key : Aspect → String
  | .Primordium => "custom3"
  | .Gloria => "custom5"
  | a => a.display_name

/-- ASCII lowercasing of a single character, as performed byte-wise by
Rust's `eq_ignore_ascii_case`. -/
def asciiLowerChar (c : Char) : Char :=
  if 65 ≤ c.toNat ∧ c.toNat ≤ 90 then Char.ofNat (c.toNat + 32) else c

/-- ASCII lowercasing of a string. -/
def asciiLower (s : String) : String :=
  ⟨s.data.map asciiLowerChar⟩

/-- Rust's `str::eq_ignore_ascii_case`. -/
def eqIgnoreAsciiCase (a b : String) : Bool :=
  asciiLower a = asciiLower b

/-- `Aspect::get_by_key`: the first variant (in `values` order) whose
`key()` equals the argument up to ASCII case. -/
def Aspect.get_by_key (name : String) : Option Aspect :=
  Aspect.values.find? fun v => eqIgnoreAsciiCase v.key name

/-- Levenshtein edit-distance recurrence (the distance computed by the
`strsim` crate's `levenshtein`), with a structural fuel argument so the
kernel can evaluate it.  Every recursive call lowers the total length by
at least one, so with `fuel = |xs| + |ys|` the fuel never runs out and
the `0`-fuel clause is unreachable. -/
def levFuel : Nat → List Char → List Char → Nat
  | _, [], ys => ys.length
  | _, x :: xs, [] => (x :: xs).length
  | 0, _ :: _, _ :: _ => 0
  | fuel + 1, x :: xs, y :: ys =>
    if x = y then levFuel fuel xs ys
    else 1 + min (levFuel fuel xs ys)
      (min (levFuel fuel (x :: xs) ys) (levFuel fuel xs (y :: ys)))

/-- Levenshtein edit distance between character lists. -/
def lev (xs ys : List Char) : Nat := levFuel (xs.length + ys.length) xs ys

/-- `strsim::normalized_levenshtein`, modelled exactly over `ℚ`. -/
def normalized_levenshtein (a b : String) : ℚ :=
  if a.data = [] ∧ b.data = [] then 1
  else 1 - (lev a.data b.data : ℚ) / ((a.data.length.max b.data.length : Nat) : ℚ)

/-- Every character of the string is an ASCII code point.  On such
strings Rust's Unicode `str::to_lowercase` maps each character
independently, `A`-`Z` to `a`-`z` and every other ASCII character to
itself, so it coincides exactly with `asciiLower`. -/
def asciiOnly (s : String) : Prop := ∀ c ∈ s.data, c.toNat ≤ 127

instance (s : String) : Decidable (asciiOnly s) :=
  inferInstanceAs (Decidable (∀ c ∈ s.data, c.toNat ≤ 127))

/-- The similarity score computed once per loop iteration inside
`Aspect::from_str_fuzzy`: the variant's display name against the
lowercased input.  The source lowercases the input with the Unicode
`str::to_lowercase`; it is embedded here as `asciiLower`, which agrees
with it exactly on `asciiOnly` inputs (the domain over which the fuzzy
lookup is characterised below), while the display names themselves are
ASCII and already lowercase. -/
def fuzzyScore (input : String) (v : Aspect) : ℚ :=
  normalized_levenshtein v.display_name (asciiLower input)

/-- The accumulator loop of `Aspect::from_str_fuzzy`: keeps the highest
score seen so far and the first variant that achieved it. -/
def fuzzyFold (input : String) : List Aspect → ℚ → Option Aspect → ℚ × Option Aspect
  | [], highest, best => (highest, best)
  | v :: rest, highest, best =>
    if fuzzyScore input v > highest then fuzzyFold input rest (fuzzyScore input v) (some v)
    else fuzzyFold input rest highest best

/-- `Aspect::from_str_fuzzy`. -/
def Aspect.from_str_fuzzy (name : String) : Option (Aspect × ℚ) :=
  match fuzzyFold name Aspect.values 0 none with
  | (highest, some best) => some (best, highest)
  | (_, none) => none

/-- Decoded NBT values, as far as `AspectInventory::from_nbt` inspects
them.  `other` stands for every NBT payload kind the code does not
pattern-match on. -/
inductive NValue where
  | short (i : Int)
  | str (s : String)
  | list (vs : List NValue)
  | compound (entries : List (String × NValue))
  | other

/-- A decoded NBT blob: named top-level entries. -/
structure NBlob where
  entries : List (String × NValue)

/-- First-match association lookup (hash-map `get`). -/
def lookupS (l : List (String × NValue)) (k : String) : Option NValue :=
  match l with
  | [] => none
  | (k', v) :: rest => if k' = k then some v else lookupS rest k

/-- `AspectInventory::parse_aspect`: extracts a `(key, amount)` record,
reporting the same error conditions in the same order as the source. -/
def parse_aspect (v : NValue) : Except String (Aspect × Nat) :=
  match v with
  | .compound data =>
    match lookupS data "key" with
    | some (.str s) =>
      match lookupS data "amount" with
      | some (.short i) =>
        if i < 0 then .error "Aspect amount is negative"
        else
          match Aspect.get_by_key s with
          | some a => .ok (a, i.toNat)
          | none => .error ("Aspect inventory contains unknown aspect " ++ s)
      | _ => .error "Aspect amount is missing or not a short"
    | _ => .error "Aspect key is missing or not a string"
  | _ => .error "Aspect inventory contains unexpected NBT element"

/-- `HashMap::insert` on an association list: overwrites the binding of
an existing key, otherwise appends a new one. -/
def insertAmap (m : List (Aspect × Nat)) (a : Aspect) (n : Nat) : List (Aspect × Nat) :=
  match m with
  | [] => [(a, n)]
  | (k, v) :: rest => if k = a then (k, n) :: rest else (k, v) :: insertAmap rest a n

/-- Association lookup for the inventory map. -/
def lookupA (m : List (Aspect × Nat)) (a : Aspect) : Option Nat :=
  match m with
  | [] => none
  | (k, v) :: rest => if k = a then some v else lookupA rest a

/-- The parsing loop of `AspectInventory::from_nbt`: parse each record,
propagating the first error, inserting successes into the map. -/
def parseInto (vs : List NValue) (m : List (Aspect × Nat)) :
    Except String (List (Aspect × Nat)) :=
  match vs with
  | [] => .ok m
  | v :: rest =>
    match parse_aspect v with
    | .error e => .error e
    | .ok (a, n) => parseInto rest (insertAmap m a n)

/-- `AspectInventory`: the parsed ownership map plus the cached maximal
owned amount. -/
structure AspectInventory where
  inventory : List (Aspect × Nat)
  max_amount : Nat
deriving DecidableEq

/-- `inventory.values().max().unwrap_or_default()`. -/
def maxValues (m : List (Aspect × Nat)) : Nat :=
  (m.map fun p => p.2).foldr max 0

/-- `AspectInventory::from_nbt`. -/
def AspectInventory.from_nbt (b : NBlob) : Except String AspectInventory :=
  match lookupS b.entries "THAUMCRAFT.ASPECTS" with
  | some (.list vs) =>
    match parseInto vs [] with
    | .error e => .error e
    | .ok m => .ok ⟨m, maxValues m⟩
  | _ => .error "The NBT structure does not contain a valid list of ThaumCraft aspects"

/-- `AspectInventory::amount_of`. -/
def AspectInventory.amount_of (inv : AspectInventory) (a : Aspect) : Nat :=
  (lookupA inv.inventory a).getD 0

/-- `AspectInventory::price_of`.  `u16::MAX` is the sentinel for unowned
aspects; otherwise `max_amount + 1 - amount` (no overflow for inventories
produced by `from_nbt`, whose amounts fit in `i16`). -/
def AspectInventory.price_of (inv : AspectInventory) (a : Aspect) : Nat :=
  if inv.amount_of a = 0 then 65535 else inv.max_amount + 1 - inv.amount_of a

/-- Well-formedness of an inventory, guaranteed for every inventory
`from_nbt` produces: the cached maximum dominates every entry and all
amounts fit in an `i16` (they were decoded from NBT shorts). -/
def AspectInventory.wf (inv : AspectInventory) : Prop :=
  inv.max_amount ≤ 32767 ∧ ∀ p ∈ inv.inventory, p.2 ≤ inv.max_amount

instance (inv : AspectInventory) : Decidable inv.wf :=
  inferInstanceAs (Decidable (inv.max_amount ≤ 32767 ∧ ∀ p ∈ inv.inventory, p.2 ≤ inv.max_amount))

/-- `Graph<Aspect>` of `graph.rs`: an adjacency map from node to its
neighbour set, modelled as an association list of duplicate-free
neighbour lists. -/
def AGraph : Type := List (Aspect × List Aspect)

/-- `Graph::neighbours` (and the set underlying
`neighbours_cloned_iter`): the neighbour set of a node, empty when the
node has no entry. -/
def neighbours (g : AGraph) (n : Aspect) : List Aspect :=
  match g with
  | [] => []
  | (k, ns) :: rest => if k = n then ns else neighbours rest n

/-- `Graph::add_edge`: `edges.entry(from).or_default().insert(to)` —
inserts `to` into the neighbour set of `from`. -/
def add_edge (g : AGraph) (f t : Aspect) : AGraph :=
  match g with
  | [] => [(f, [t])]
  | (k, ns) :: rest =>
    if k = f then (k, if t ∈ ns then ns else t :: ns) :: rest
    else (k, ns) :: add_edge rest f t

/-- `Graph::add_indirectional_edge`. -/
def add_indirectional_edge (g : AGraph) (a b : Aspect) : AGraph :=
  add_edge (add_edge g a b) b a

/-- `Solver::add_composite_edges`. -/
def add_composite_edges (g : AGraph) (composite primal_a primal_b : Aspect) : AGraph :=
  add_indirectional_edge (add_indirectional_edge g composite primal_a) composite primal_b

/-- The fixed composition-rule table of `Solver::build_aspect_graph`,
in source order: `(composite, primal_a, primal_b)`. -/
def rules : List (Aspect × Aspect × Aspect) :=
  [(.Alienis, .Vacuos, .Tenebrae),
   (.Arbor, .Aer, .Herba),
   (.Auram, .Praecantatio, .Aer),
   (.Bestia, .Motus, .Victus),
   (.Caelum, .Vitreus, .Metallum),
   (.Cognitio, .Ignis, .Spiritus),
   (.Corpus, .Mortuus, .Bestia),
   (.Desidia, .Vinculum, .Spiritus),
   (.Electrum, .Potentia, .Machina),
   (.Exanimis, .Motus, .Mortuus),
   (.Fabrico, .Humanus, .Instrumentum),
   (.Fames, .Victus, .Vacuos),
   (.Gelum, .Ignis, .Perditio),
   (.Gula, .Fames, .Vacuos),
   (.Herba, .Victus, .Terra),
   (.Humanus, .Bestia, .Cognitio),
   (.Infernus, .Ignis, .Praecantatio),
   (.Instrumentum, .Humanus, .Ordo),
   (.Invidia, .Sensus, .Fames),
   (.Ira, .Telum, .Ignis),
   (.Iter, .Motus, .Terra),
   (.Limus, .Victus, .Aqua),
   (.Lucrum, .Humanus, .Fames),
   (.Lux, .Aer, .Ignis),
   (.Luxuria, .Corpus, .Fames),
   (.Machina, .Motus, .Instrumentum),
   (.Magneto, .Metallum, .Iter),
   (.Messis, .Herba, .Humanus),
   (.Metallum, .Terra, .Vitreus),
   (.Meto, .Messis, .Instrumentum),
   (.Mortuus, .Victus, .Perditio),
   (.Motus, .Aer, .Ordo),
   (.Nebrisum, .Perfodio, .Lucrum),
   (.Pannus, .Instrumentum, .Bestia),
   (.Perfodio, .Humanus, .Terra),
   (.Permutatio, .Perditio, .Ordo),
   (.Potentia, .Ordo, .Ignis),
   (.Praecantatio, .Vacuos, .Potentia),
   (.Radio, .Lux, .Potentia),
   (.Sano, .Victus, .Ordo),
   (.Sensus, .Aer, .Spiritus),
   (.Spiritus, .Victus, .Mortuus),
   (.Strontio, .Cognitio, .Perditio),
   (.Superbia, .Volatus, .Vacuos),
   (.Tabernus, .Tutamen, .Iter),
   (.Telum, .Instrumentum, .Ignis),
   (.Tempestas, .Aer, .Aqua),
   (.Tempus, .Vacuos, .Ordo),
   (.Tenebrae, .Vacuos, .Lux),
   (.Tutamen, .Instrumentum, .Terra),
   (.Vacuos, .Aer, .Perditio),
   (.Venenum, .Aqua, .Perditio),
   (.Victus, .Aqua, .Terra),
   (.Vinculum, .Motus, .Perditio),
   (.Vitium, .Praecantatio, .Perditio),
   (.Vitreus, .Terra, .Ordo),
   (.Volatus, .Aer, .Motus)]

/-- `Solver::build_aspect_graph`: fold the rule table into the graph. -/
def build_aspect_graph : AGraph :=
  rules.foldl (fun g r => add_composite_edges g r.1 r.2.1 r.2.2) []

/-- Adjacency in a graph: `b` is in the neighbour set of `a`. -/
def adjacent (g : AGraph) (a b : Aspect) : Prop := b ∈ neighbours g a

instance (g : AGraph) (a b : Aspect) : Decidable (adjacent g a b) :=
  inferInstanceAs (Decidable (b ∈ neighbours g a))

/-- The largest neighbour-set size of a graph (used only to measure the
search loop). -/
def maxDeg (g : AGraph) : Nat :=
  match g with
  | [] => 0
  | (_, ns) :: rest => max ns.length (maxDeg rest)

/-- The `SolverState` struct of `solver.rs`; `price` is the `u32`
accumulator (kept reduced modulo `2^32`), `distance` the `u8` counter. -/
structure SolverState where
  node : Aspect
  price : Nat
  distance : Fin 256
  path : List Aspect
deriving DecidableEq

/-- How many more expansion levels an item at `u8` distance `d` needs
before the `distance == desired_distance` test fires: the difference
`desired - d` in wrapping `u8` arithmetic. -/
def remD (desired d : Fin 256) : Nat := (desired.val + 256 - d.val) % 256

/-- One expansion of a frontier item: the `for neighbor in ...` body of
`Solver::find_paths_with_length`.  The new price is the `u32` sum
(reduced modulo `2^32`); items whose price exceeds the current bound are
not pushed. -/
def expandItem (g : AGraph) (inv : AspectInventory) (lowest : Nat) (s : SolverState) :
    List SolverState :=
  (neighbours g s.node).filterMap fun nb =>
    if (inv.price_of nb + s.price) % 4294967296 ≤ lowest then
      some { node := nb, price := (inv.price_of nb + s.price) % 4294967296,
             distance := s.distance + 1, path := s.path ++ [nb] }
    else none

/-- The `while let Some(..) = queue.pop_front()` loop of
`Solver::find_paths_with_length`, as a recursion over the queue together
with the mutable `paths` and `lowest_price` accumulators. -/
def solveLoop (g : AGraph) (inv : AspectInventory) (desired : Fin 256) (endA : Aspect) :
    List SolverState → List (List Aspect) → Nat → List (List Aspect) × Nat
  | [], paths, lowest => (paths, lowest)
  | s :: queue, paths, lowest =>
    if hdist : s.distance = desired then
      if s.node = endA ∧ s.price ≤ lowest then
        if s.price < lowest then solveLoop g inv desired endA queue [s.path] s.price
        else solveLoop g inv desired endA queue (paths ++ [s.path]) lowest
      else solveLoop g inv desired endA queue paths lowest
    else solveLoop g inv desired endA (queue ++ expandItem g inv lowest s) paths lowest
termination_by qs _ _ => ((qs.map fun t => (maxDeg g + 1) ^ remD desired t.distance).sum)
decreasing_by
  · simp only [List.map_cons, List.sum_cons]
    have hpos : 0 < (maxDeg g + 1) ^ remD desired s.distance := Nat.pos_pow_of_pos _ (Nat.succ_pos _)
    omega
  · simp only [List.map_cons, List.sum_cons]
    have hpos : 0 < (maxDeg g + 1) ^ remD desired s.distance := Nat.pos_pow_of_pos _ (Nat.succ_pos _)
    omega
  · simp only [List.map_cons, List.sum_cons]
    have hpos : 0 < (maxDeg g + 1) ^ remD desired s.distance := Nat.pos_pow_of_pos _ (Nat.succ_pos _)
    omega
  · simp only [List.map_cons, List.sum_cons, List.map_append, List.sum_append]
    have hne : s.distance.val ≠ desired.val := fun h => hdist (Fin.ext h)
    have hlt1 : s.distance.val < 256 := s.distance.isLt
    have hlt2 : desired.val < 256 := desired.isLt
    have hrem1 : 1 ≤ remD desired s.distance := by unfold remD; omega
    have hone : ((1 : Fin 256)).val = 1 := rfl
    have hsucc : remD desired (s.distance + 1) = remD desired s.distance - 1 := by
      have hadd : (s.distance + 1).val = (s.distance.val + 1) % 256 := by
        rw [Fin.val_add, hone]
      unfold remD; rw [hadd]; omega
    have hdistmem : ∀ t ∈ expandItem g inv lowest s, t.distance = s.distance + 1 := by
      intro t ht
      simp only [expandItem, List.mem_filterMap] at ht
      obtain ⟨nb, hnb, ht⟩ := ht
      split at ht
      · cases ht; rfl
      · cases ht
    have hboundall : ∀ x ∈ (expandItem g inv lowest s).map
        (fun t => (maxDeg g + 1) ^ remD desired t.distance),
        x = (maxDeg g + 1) ^ (remD desired s.distance - 1) := by
      intro x hx
      simp only [List.mem_map] at hx
      obtain ⟨t, ht, rfl⟩ := hx
      rw [hdistmem t ht, hsucc]
    have hsumle : ∀ (l : List Nat) (c : Nat), (∀ x ∈ l, x = c) → l.sum ≤ l.length * c := by
      intro l c hl
      induction l with
      | nil => simp
      | cons a l ih =>
        simp only [List.sum_cons, List.length_cons]
        have ha := hl a (by simp)
        have := ih (fun x hx => hl x (by simp [hx]))
        subst ha
        rw [Nat.succ_mul]
        omega
    have hlen : ∀ (G : AGraph) (n : Aspect), (neighbours G n).length ≤ maxDeg G := by
      intro G n
      induction G with
      | nil => simp [neighbours, maxDeg]
      | cons e rest ih =>
        obtain ⟨k, ns⟩ := e
        simp only [neighbours, maxDeg]
        split
        · exact Nat.le_max_left _ _
        · exact le_trans ih (Nat.le_max_right _ _)
    have hexplen : (expandItem g inv lowest s).length ≤ maxDeg g := by
      unfold expandItem
      exact le_trans (List.length_filterMap_le _ _) (hlen g s.node)
    have hexp : ((expandItem g inv lowest s).map
        (fun t => (maxDeg g + 1) ^ remD desired t.distance)).sum
        < (maxDeg g + 1) ^ remD desired s.distance := by
      have h1 := hsumle _ _ hboundall
      rw [List.length_map] at h1
      have h2 : (expandItem g inv lowest s).length * (maxDeg g + 1) ^ (remD desired s.distance - 1)
          ≤ maxDeg g * (maxDeg g + 1) ^ (remD desired s.distance - 1) :=
        Nat.mul_le_mul_right _ hexplen
      have h3 : maxDeg g * (maxDeg g + 1) ^ (remD desired s.distance - 1)
          < (maxDeg g + 1) * (maxDeg g + 1) ^ (remD desired s.distance - 1) :=
        (Nat.mul_lt_mul_right (Nat.pos_pow_of_pos _ (Nat.succ_pos _))).mpr (Nat.lt_succ_self _)
      have h4 : (maxDeg g + 1) * (maxDeg g + 1) ^ (remD desired s.distance - 1)
          = (maxDeg g + 1) ^ remD desired s.distance := by
        rw [← pow_succ']
        congr 1
        omega
      omega
    omega

/-- The `Solver` struct: the fixed composition graph plus the injected
inventory. -/
structure Solver where
  aspect_graph : AGraph
  aspect_inventory : AspectInventory

/-- `Solver::new`. -/
def Solver.new (inv : AspectInventory) : Solver := ⟨build_aspect_graph, inv⟩

/-- The `AspectPaths` result struct. -/
structure AspectPaths where
  paths : List (List Aspect)
  price : Nat
deriving DecidableEq

/-- `Solver::find_paths_with_length`: run the search loop from the
initial state `(start, price 0, distance 1, path [start])` with the
bound at `u32::MAX`. -/
def Solver.find_paths_with_length (sol : Solver) (start endA : Aspect) (desired : Fin 256) :
    AspectPaths :=
  let r := solveLoop sol.aspect_graph sol.aspect_inventory desired endA
    [⟨start, 0, 1, [start]⟩] [] 4294967295
  ⟨r.1, r.2⟩

/-- Expansion with the bound still at its initial `u32::MAX` value. -/
def expandFull (g : AGraph) (inv : AspectInventory) (s : SolverState) : List SolverState :=
  expandItem g inv 4294967295 s

/-- The successive BFS frontiers explored by the search: level `k` holds
every item whose path has `k + 1` nodes. -/
def frontiers (g : AGraph) (inv : AspectInventory) (start : Aspect) : Nat → List SolverState
  | 0 => [⟨start, 0, 1, [start]⟩]
  | k + 1 => (frontiers g inv start k).flatMap fun s => expandFull g inv s

/-- The cost of a path: the prices of all its nodes except the start. -/
def pathCost (inv : AspectInventory) (p : List Aspect) : Nat :=
  ((p.drop 1).map inv.price_of).sum

/-- The candidate-evaluation phase of the loop, re-expressed on bare
paths: fold each completed path into the `(paths, lowest_price)`
accumulator exactly as the `distance == desired_distance` branch does. -/
def runCands (inv : AspectInventory) (endA : Aspect) :
    List (List Aspect) → List (List Aspect) × Nat → List (List Aspect) × Nat
  | [], acc => acc
  | p :: ps, (paths, lowest) =>
    if p.getLast? = some endA ∧ pathCost inv p ≤ lowest then
      if pathCost inv p < lowest then runCands inv endA ps ([p], pathCost inv p)
      else runCands inv endA ps (paths ++ [p], lowest)
    else runCands inv endA ps (paths, lowest)

/-- The minimum cost among the completed paths ending at `endA`, with
`low` as the initial (sentinel) value. -/
def minCostFold (inv : AspectInventory) (endA : Aspect) (ws : List (List Aspect)) (low : Nat) : Nat :=
  ws.foldl (fun m p => if p.getLast? = some endA then min m (pathCost inv p) else m) low

/-- The paths of the `k`-th BFS frontier. -/
def frontierPaths (g : AGraph) (inv : AspectInventory) (start : Aspect) (k : Nat) :
    List (List Aspect) :=
  (frontiers g inv start k).map fun s => s.path

/-- Executable walk check: every consecutive pair of the list is an edge
of the graph. -/
def chainB (g : AGraph) : List Aspect → Bool
  | [] => true
  | [_] => true
  | x :: y :: rest => decide (y ∈ neighbours g x) && chainB g (y :: rest)

/-- The four undirected edges one composition rule contributes. -/
def ruleEdge (r : Aspect × Aspect × Aspect) (a b : Aspect) : Prop :=
  (a = r.1 ∧ b = r.2.1) ∨ (a = r.2.1 ∧ b = r.1) ∨ (a = r.1 ∧ b = r.2.2) ∨ (a = r.2.2 ∧ b = r.1)

/-- The malformedness conditions for a single inventory record, as the
spec lists them: not a record at all, missing/badly-typed name field,
missing/badly-typed count field, negative count, or a key that resolves
to no catalog node. -/
def specRecordBad (v : NValue) : Prop :=
  match v with
  | .compound d =>
    (∀ s, lookupS d "key" ≠ some (.str s)) ∨
    (∀ i, lookupS d "amount" ≠ some (.short i)) ∨
    (∃ i, lookupS d "amount" = some (.short i) ∧ i < 0) ∨
    (∃ s, lookupS d "key" = some (.str s) ∧ Aspect.get_by_key s = none)
  | _ => True

/-- The spec's `MalformedInventory` conditions for a whole snapshot. -/
def specMalformed (b : NBlob) : Prop :=
  (∀ vs, lookupS b.entries "THAUMCRAFT.ASPECTS" ≠ some (.list vs)) ∨
  (∃ vs, lookupS b.entries "THAUMCRAFT.ASPECTS" = some (.list vs) ∧ ∃ v ∈ vs, specRecordBad v)

/-- Whether an `Except` value is an error. -/
def isErr {ε α : Type} (e : Except ε α) : Bool :=
  match e with
  | .error _ => true
  | .ok _ => false

/-- The counts of all records of a snapshot list that parse to aspect
`a`, in list order. -/
def selAmounts (vs : List NValue) (a : Aspect) : List Nat :=
  vs.filterMap fun v =>
    match parse_aspect v with
    | .ok (k, n) => if k = a then some n else none
    | .error _ => none

/-- Option fallback: the first operand if present, else the second. -/
def optOr {α : Type} (x y : Option α) : Option α :=
  match x with
  | some v => some v
  | none => y

/-- The i16 range constraint NBT shorts satisfy by construction: every
`amount` field of every record is at most `i16::MAX`. -/
def listShortsOK (vs : List NValue) : Prop :=
  ∀ v ∈ vs, ∀ d, v = NValue.compound d → ∀ i, lookupS d "amount" = some (.short i) → i ≤ 32767

/-- A tiny concrete inventory used to instantiate theorems: 5 Aer and
3 Aqua. -/
def invAB : AspectInventory := ⟨[(Aspect.Aer, 5), (Aspect.Aqua, 3)], 5⟩

/-- The inventory produced from an empty snapshot: nothing owned. -/
def invEmpty : AspectInventory := ⟨[], 0⟩

/-- `2 * n` alternating steps `Vacuos, Aer, Vacuos, Aer, ...`. -/
def pump : Nat → List Aspect
  | 0 => []
  | n + 1 => Aspect.Vacuos :: Aspect.Aer :: pump n

/-- A concrete closed walk with 256 nodes from `Aer` to `Aer` in the
composition graph: 125 round trips `Aer-Vacuos`, then the odd cycle
`Aer-Vacuos-Fames-Gula-Vacuos-Aer`. -/
def longWalk : List Aspect :=
  Aspect.Aer :: (pump 125 ++ [Aspect.Vacuos, Aspect.Fames, Aspect.Gula, Aspect.Vacuos, Aspect.Aer])

/-- A concrete record list with two well-formed records for the same
aspect key. -/
def dupVs : List NValue :=
  [.compound [("key", .str "aer"), ("amount", .short 3)],
   .compound [("key", .str "aer"), ("amount", .short 7)]]

/-- A concrete snapshot containing `dupVs`. -/
def dupBlob : NBlob := ⟨[("THAUMCRAFT.ASPECTS", .list dupVs)]⟩

/-! ## Graph lemmas and claim C6 -/

theorem add_edge_nil (f t : Aspect) : add_edge [] f t = [(f, [t])] := rfl

theorem add_edge_cons (k : Aspect) (ns : List Aspect) (rest : AGraph) (f t : Aspect) :
    add_edge ((k, ns) :: rest) f t =
      if k = f then (k, if t ∈ ns then ns else t :: ns) :: rest
      else (k, ns) :: add_edge rest f t := rfl

theorem neighbours_nil (a : Aspect) : neighbours [] a = [] := rfl

theorem neighbours_cons (k : Aspect) (ns : List Aspect) (rest : AGraph) (a : Aspect) :
    neighbours ((k, ns) :: rest) a = if k = a then ns else neighbours rest a := rfl

theorem mem_neighbours_add_edge (g : AGraph) (f t a b : Aspect) :
    b ∈ neighbours (add_edge g f t) a ↔ b ∈ neighbours g a ∨ (a = f ∧ b = t) := by
  induction g with
  | nil =>
    rw [add_edge_nil, neighbours_cons, neighbours_nil]
    by_cases h : f = a
    · rw [if_pos h]
      constructor
      · intro hb
        exact Or.inr ⟨h.symm, by simpa using hb⟩
      · rintro (hb | ⟨-, rfl⟩)
        · exact absurd hb (List.not_mem_nil b)
        · exact List.mem_singleton.mpr rfl
    · rw [if_neg h]
      constructor
      · intro hb
        exact absurd hb (List.not_mem_nil b)
      · rintro (hb | ⟨rfl, -⟩)
        · exact hb
        · exact absurd rfl h
  | cons e rest ih =>
    obtain ⟨k, ns⟩ := e
    rw [add_edge_cons]
    by_cases hk : k = f
    · subst hk
      rw [if_pos rfl, neighbours_cons, neighbours_cons]
      by_cases ha : k = a
      · rw [if_pos ha, if_pos ha]
        subst ha
        by_cases ht : t ∈ ns
        · rw [if_pos ht]
          constructor
          · exact Or.inl
          · rintro (hb | ⟨-, rfl⟩)
            · exact hb
            · exact ht
        · rw [if_neg ht]
          constructor
          · intro hb
            rcases List.mem_cons.mp hb with rfl | hb
            · exact Or.inr ⟨rfl, rfl⟩
            · exact Or.inl hb
          · rintro (hb | ⟨-, rfl⟩)
            · exact List.mem_cons_of_mem _ hb
            · exact List.mem_cons_self _ _
      · rw [if_neg ha, if_neg ha]
        constructor
        · exact Or.inl
        · rintro (hb | ⟨rfl, -⟩)
          · exact hb
          · exact absurd rfl ha
    · rw [if_neg hk, neighbours_cons, neighbours_cons]
      by_cases ha : k = a
      · rw [if_pos ha, if_pos ha]
        constructor
        · exact Or.inl
        · rintro (hb | ⟨rfl, -⟩)
          · exact hb
          · exact absurd ha hk
      · rw [if_neg ha, if_neg ha]
        exact ih

theorem mem_neighbours_add_indir (g : AGraph) (x y a b : Aspect) :
    b ∈ neighbours (add_indirectional_edge g x y) a ↔
      b ∈ neighbours g a ∨ (a = x ∧ b = y) ∨ (a = y ∧ b = x) := by
  unfold add_indirectional_edge
  rw [mem_neighbours_add_edge, mem_neighbours_add_edge]
  tauto

theorem mem_neighbours_add_composite (g : AGraph) (c pa pb a b : Aspect) :
    b ∈ neighbours (add_composite_edges g c pa pb) a ↔
      b ∈ neighbours g a ∨ ruleEdge (c, pa, pb) a b := by
  unfold add_composite_edges ruleEdge
  rw [mem_neighbours_add_indir, mem_neighbours_add_indir]
  simp only
  tauto

theorem mem_neighbours_fold (rs : List (Aspect × Aspect × Aspect)) :
    ∀ (g : AGraph) (a b : Aspect),
    b ∈ neighbours (rs.foldl (fun g r => add_composite_edges g r.1 r.2.1 r.2.2) g) a ↔
      b ∈ neighbours g a ∨ ∃ r ∈ rs, ruleEdge r a b := by
  induction rs with
  | nil => simp
  | cons r rs ih =>
    intro g a b
    simp only [List.foldl_cons]
    rw [ih, mem_neighbours_add_composite]
    simp only [List.mem_cons]
    constructor
    · rintro ((h | h) | ⟨r', hr', h⟩)
      · exact Or.inl h
      · exact Or.inr ⟨r, Or.inl rfl, by simpa using h⟩
      · exact Or.inr ⟨r', Or.inr hr', h⟩
    · rintro (h | ⟨r', (rfl | hr'), h⟩)
      · exact Or.inl (Or.inl h)
      · exact Or.inl (Or.inr (by simpa using h))
      · exact Or.inr ⟨r', hr', h⟩

theorem mem_build_aspect_graph (a b : Aspect) :
    b ∈ neighbours build_aspect_graph a ↔ ∃ r ∈ rules, ruleEdge r a b := by
  unfold build_aspect_graph
  rw [mem_neighbours_fold]
  simp [neighbours]

/-- C6: the composition graph built from the fixed rule table is
symmetric (`B ∈ neighbours A ↔ A ∈ neighbours B`), and for every rule
`(R, A, B)` both `A` and `B` are adjacent to `R` and vice versa. -/
theorem claim_C6 :
    (∀ a b : Aspect, b ∈ neighbours build_aspect_graph a ↔ a ∈ neighbours build_aspect_graph b) ∧
    (∀ r ∈ rules,
      r.2.1 ∈ neighbours build_aspect_graph r.1 ∧
      r.2.2 ∈ neighbours build_aspect_graph r.1 ∧
      r.1 ∈ neighbours build_aspect_graph r.2.1 ∧
      r.1 ∈ neighbours build_aspect_graph r.2.2) := by
  constructor
  · intro a b
    rw [mem_build_aspect_graph, mem_build_aspect_graph]
    constructor
    · rintro ⟨r, hr, h⟩
      exact ⟨r, hr, by unfold ruleEdge at *; tauto⟩
    · rintro ⟨r, hr, h⟩
      exact ⟨r, hr, by unfold ruleEdge at *; tauto⟩
  · intro r hr
    refine ⟨?_, ?_, ?_, ?_⟩ <;> rw [mem_build_aspect_graph] <;>
      exact ⟨r, hr, by unfold ruleEdge; tauto⟩

/-- Witness for C6 at the first rule `(Alienis, Vacuos, Tenebrae)`. -/
theorem claim_C6_witness :
    Aspect.Vacuos ∈ neighbours build_aspect_graph Aspect.Alienis ∧
    Aspect.Tenebrae ∈ neighbours build_aspect_graph Aspect.Alienis ∧
    Aspect.Alienis ∈ neighbours build_aspect_graph Aspect.Vacuos ∧
    Aspect.Alienis ∈ neighbours build_aspect_graph Aspect.Tenebrae :=
  claim_C6.2 (Aspect.Alienis, Aspect.Vacuos, Aspect.Tenebrae) (by decide)

/-! ## Exact key lookup: claim C9 -/

theorem Aspect.mem_values : ∀ a : Aspect, a ∈ Aspect.values := by decide

theorem lowered_keys_nodup :
    (Aspect.values.map fun v => asciiLower v.key).Nodup := by decide

theorem find_first_of_key_nodup (l : List Aspect) (a : Aspect) (s : String)
    (hnd : (l.map fun v => asciiLower v.key).Nodup) (ha : a ∈ l)
    (hs : asciiLower s = asciiLower a.key) :
    (l.find? fun v => eqIgnoreAsciiCase v.key s) = some a := by
  induction l with
  | nil => cases ha
  | cons h tl ih =>
    have hnd' : (tl.map fun v => asciiLower v.key).Nodup :=
      (List.nodup_cons.mp (by simpa using hnd)).2
    have hhead : asciiLower h.key ∉ tl.map fun v => asciiLower v.key :=
      (List.nodup_cons.mp (by simpa using hnd)).1
    by_cases hph : eqIgnoreAsciiCase h.key s = true
    · have hk : asciiLower h.key = asciiLower s := by
        have := of_decide_eq_true hph
        exact this
      have heq : h = a := by
        rcases List.mem_cons.mp ha with rfl | hmem
        · rfl
        · exfalso
          apply hhead
          rw [hk, hs]
          exact List.mem_map_of_mem _ hmem
      subst heq
      exact List.find?_cons_of_pos _ hph
    · have hne : asciiLower h.key ≠ asciiLower s := fun hh => hph (decide_eq_true hh)
      have ha' : a ∈ tl := by
        rcases List.mem_cons.mp ha with rfl | hmem
        · exact absurd hs.symm hne
        · exact hmem
      have hstep : List.find? (fun v => eqIgnoreAsciiCase v.key s) (h :: tl) =
          List.find? (fun v => eqIgnoreAsciiCase v.key s) tl :=
        List.find?_cons_of_neg _ hph
      rw [hstep]
      exact ih hnd' ha'

/-- C9: exact lookup resolves any string that agrees with a node's
serialization key up to ASCII case to that node — in particular override
keys for the nodes whose canonical name differs from their key, and
canonical display names for all other nodes. -/
theorem claim_C9 (a : Aspect) (s : String) (hs : asciiLower s = asciiLower a.key) :
    Aspect.get_by_key s = some a := by
  unfold Aspect.get_by_key
  exact find_first_of_key_nodup Aspect.values a s lowered_keys_nodup (Aspect.mem_values a) hs

/-- Witness for C9: the override key of `Primordium`, in upper case. -/
theorem claim_C9_witness :
    asciiLower "CUSTOM3" = asciiLower (Aspect.key Aspect.Primordium) ∧
    Aspect.get_by_key "CUSTOM3" = some Aspect.Primordium :=
  ⟨by decide, claim_C9 Aspect.Primordium "CUSTOM3" (by decide)⟩

/-! ## Inventory pricing: claim C3 -/

theorem lookupA_nil (a : Aspect) : lookupA [] a = none := rfl

theorem lookupA_cons (k : Aspect) (v : Nat) (rest : List (Aspect × Nat)) (a : Aspect) :
    lookupA ((k, v) :: rest) a = if k = a then some v else lookupA rest a := rfl

theorem lookupA_mem {m : List (Aspect × Nat)} {a : Aspect} {v : Nat}
    (h : lookupA m a = some v) : (a, v) ∈ m := by
  induction m with
  | nil => cases h
  | cons p rest ih =>
    obtain ⟨pk, pv⟩ := p
    rw [lookupA_cons] at h
    by_cases hk : pk = a
    · rw [if_pos hk] at h
      subst hk
      cases h
      exact List.mem_cons_self _ _
    · rw [if_neg hk] at h
      exact List.mem_cons_of_mem _ (ih h)

/-- C3: for a well-formed inventory (as `from_nbt` produces), prices are
non-negative; among aspects owned in positive quantity, strictly greater
ownership gives strictly smaller price and equal ownership gives equal
price; and every aspect owned zero times (including absent ones) is
priced at the `u16::MAX` sentinel. -/
theorem claim_C3 (inv : AspectInventory) (hwf : inv.wf) (n m : Aspect)
    (hn : 0 < inv.amount_of n) (hm : 0 < inv.amount_of m) :
    (∀ k : Aspect, 0 ≤ inv.price_of k) ∧
    (inv.amount_of m < inv.amount_of n → inv.price_of n < inv.price_of m) ∧
    (inv.amount_of n = inv.amount_of m → inv.price_of n = inv.price_of m) ∧
    (∀ k : Aspect, inv.amount_of k = 0 → inv.price_of k = 65535) := by
  obtain ⟨hmax, hall⟩ := hwf
  have hbound : ∀ k : Aspect, inv.amount_of k = 0 ∨ inv.amount_of k ≤ inv.max_amount := by
    intro k
    unfold AspectInventory.amount_of
    cases hk : lookupA inv.inventory k with
    | none => left; rfl
    | some v =>
      right
      simpa using hall _ (lookupA_mem hk)
  refine ⟨fun k => Nat.zero_le _, ?_, ?_, ?_⟩
  · intro hlt
    have h1 := hbound n
    have h2 := hbound m
    unfold AspectInventory.price_of
    rw [if_neg (by omega), if_neg (by omega)]
    omega
  · intro heq
    unfold AspectInventory.price_of
    rw [heq]
  · intro k hk
    unfold AspectInventory.price_of
    rw [if_pos hk]

/-- Witness for C3 at the inventory `{Aer: 5, Aqua: 3}`. -/
theorem claim_C3_witness :
    invAB.wf ∧ 0 < invAB.amount_of Aspect.Aer ∧ 0 < invAB.amount_of Aspect.Aqua ∧
    ((∀ k : Aspect, 0 ≤ invAB.price_of k) ∧
     (invAB.amount_of Aspect.Aqua < invAB.amount_of Aspect.Aer →
       invAB.price_of Aspect.Aer < invAB.price_of Aspect.Aqua) ∧
     (invAB.amount_of Aspect.Aer = invAB.amount_of Aspect.Aqua →
       invAB.price_of Aspect.Aer = invAB.price_of Aspect.Aqua) ∧
     (∀ k : Aspect, invAB.amount_of k = 0 → invAB.price_of k = 65535)) :=
  ⟨by decide, by decide, by decide,
    claim_C3 invAB (by decide) Aspect.Aer Aspect.Aqua (by decide) (by decide)⟩

/-! ## Fuzzy lookup: claim C4 -/

theorem fuzzyFold_spec (input : String) :
    ∀ (l : List Aspect) (h : ℚ) (b : Option Aspect),
    (fuzzyFold input l h b = (h, b) ∧ ∀ x ∈ l, fuzzyScore input x ≤ h) ∨
    (∃ l1 v l2, l = l1 ++ v :: l2 ∧
      fuzzyFold input l h b = (fuzzyScore input v, some v) ∧
      h < fuzzyScore input v ∧
      (∀ x ∈ l1, fuzzyScore input x < fuzzyScore input v) ∧
      (∀ x ∈ l2, fuzzyScore input x ≤ fuzzyScore input v)) := by
  intro l
  induction l with
  | nil =>
    intro h b
    left
    exact ⟨rfl, by simp⟩
  | cons w rest ih =>
    intro h b
    by_cases hw : fuzzyScore input w > h
    · have hfold : fuzzyFold input (w :: rest) h b =
          fuzzyFold input rest (fuzzyScore input w) (some w) := by
        simp only [fuzzyFold, if_pos hw]
      rcases ih (fuzzyScore input w) (some w) with ⟨heq, hall⟩ | ⟨l1, v, l2, hsplit, heq, hv, hl1, hl2⟩
      · right
        exact ⟨[], w, rest, by simp, by rw [hfold, heq], hw, by simp, hall⟩
      · right
        refine ⟨w :: l1, v, l2, by simp [hsplit], by rw [hfold, heq], lt_trans hw hv, ?_, hl2⟩
        intro x hx
        rcases List.mem_cons.mp hx with rfl | hx
        · exact hv
        · exact hl1 x hx
    · have hfold : fuzzyFold input (w :: rest) h b = fuzzyFold input rest h b := by
        simp only [fuzzyFold, if_neg hw]
      push_neg at hw
      rcases ih h b with ⟨heq, hall⟩ | ⟨l1, v, l2, hsplit, heq, hv, hl1, hl2⟩
      · left
        refine ⟨by rw [hfold, heq], ?_⟩
        intro x hx
        rcases List.mem_cons.mp hx with rfl | hx
        · exact hw
        · exact hall x hx
      · right
        refine ⟨w :: l1, v, l2, by simp [hsplit], by rw [hfold, heq], hv, ?_, hl2⟩
        intro x hx
        rcases List.mem_cons.mp hx with rfl | hx
        · exact lt_of_le_of_lt hw hv
        · exact hl1 x hx

/-- C4 (amended): for every ASCII input string (where the embedded
ASCII lowercasing agrees exactly with the Unicode lowercasing the
source applies to the input), fuzzy lookup returns `none` exactly when
every catalog entry scores at most `0` against the input (so not only
for an empty catalog); when it returns a result, that result is the
first catalog entry attaining the (strictly positive) maximal
similarity score. -/
theorem claim_C4_amended (input : String) (hascii : asciiOnly input) :
    (Aspect.from_str_fuzzy input = none ↔ ∀ x ∈ Aspect.values, fuzzyScore input x ≤ 0) ∧
    (∀ a h, Aspect.from_str_fuzzy input = some (a, h) →
      h = fuzzyScore input a ∧ 0 < h ∧
      ∃ l1 l2, Aspect.values = l1 ++ a :: l2 ∧
        (∀ x ∈ l1, fuzzyScore input x < h) ∧ (∀ x ∈ l2, fuzzyScore input x ≤ h)) := by
  unfold Aspect.from_str_fuzzy
  rcases fuzzyFold_spec input Aspect.values 0 none with ⟨heq, hall⟩ |
    ⟨l1, v, l2, hsplit, heq, hv, hl1, hl2⟩
  · rw [heq]
    constructor
    · exact ⟨fun _ => hall, fun _ => rfl⟩
    · intro a h hcontra
      cases hcontra
  · rw [heq]
    constructor
    · constructor
      · intro hcontra
        cases hcontra
      · intro hall
        have := hall v (by rw [hsplit]; simp)
        exact absurd hv (not_lt.mpr this)
    · intro a h hsome
      have ha : v = a ∧ fuzzyScore input v = h := by
        constructor
        · exact congrArg (fun o => (Option.map Prod.fst o).getD v) hsome
        · exact congrArg (fun o => ((Option.map Prod.snd o).getD (fuzzyScore input v))) hsome
      obtain ⟨rfl, rfl⟩ := ha
      exact ⟨rfl, hv, l1, l2, hsplit, hl1, hl2⟩

theorem lev_nil_right (xs : List Char) : lev xs [] = xs.length := by
  cases xs <;> rfl

theorem fuzzyScore_le_one (input : String) (v : Aspect) : fuzzyScore input v ≤ 1 := by
  unfold fuzzyScore normalized_levenshtein
  split
  · exact le_refl 1
  · have h1 : (0 : ℚ) ≤ (lev v.display_name.data (asciiLower input).data : ℚ) :=
      Nat.cast_nonneg _
    have h2 : (0 : ℚ) ≤ ((v.display_name.data.length.max (asciiLower input).data.length : Nat) : ℚ) :=
      Nat.cast_nonneg _
    have := div_nonneg h1 h2
    linarith

theorem fuzzyScore_empty (v : Aspect) : fuzzyScore "" v = 0 := by
  have hne : v.display_name.data ≠ [] := by cases v <;> decide
  have hlow : asciiLower "" = "" := rfl
  unfold fuzzyScore normalized_levenshtein
  rw [hlow]
  rw [if_neg (by simp [hne])]
  have hdata : ("" : String).data = [] := rfl
  rw [hdata, lev_nil_right]
  have hmax : v.display_name.data.length.max ([] : List Char).length = v.display_name.data.length := by
    simp
  rw [hmax]
  have hpos : v.display_name.data.length ≠ 0 :=
    fun h => hne (List.eq_nil_of_length_eq_zero h)
  have hcast : ((v.display_name.data.length : Nat) : ℚ) ≠ 0 := by
    exact_mod_cast hpos
  rw [div_self hcast]
  ring

theorem from_str_fuzzy_empty : Aspect.from_str_fuzzy "" = none := by
  unfold Aspect.from_str_fuzzy
  rcases fuzzyFold_spec "" Aspect.values 0 none with ⟨heq, -⟩ |
    ⟨l1, v, l2, -, -, hv, -, -⟩
  · rw [heq]
  · rw [fuzzyScore_empty] at hv
    exact absurd hv (lt_irrefl 0)

/-- C4 counterexample: on the empty input string (an ASCII input, where
the embedding of the input lowercasing is exact) every score is `0`, so
`from_str_fuzzy` returns `none` even though the catalog is non-empty,
refuting "returns nothing only when the catalog is empty". -/
theorem claim_C4_counterexample :
    asciiOnly "" ∧ Aspect.from_str_fuzzy "" = none ∧ Aspect.values ≠ [] :=
  ⟨by decide, from_str_fuzzy_empty, by decide⟩

theorem fuzzyScore_aer : fuzzyScore "aer" Aspect.Aer = 1 := by
  have hlow : asciiLower "aer" = "aer" := rfl
  have hlev : lev (Aspect.display_name Aspect.Aer).data (asciiLower "aer").data = 0 := by decide
  unfold fuzzyScore normalized_levenshtein
  rw [hlev]
  rw [if_neg (by decide)]
  norm_num

theorem from_str_fuzzy_aer : Aspect.from_str_fuzzy "aer" = some (Aspect.Aer, 1) := by
  unfold Aspect.from_str_fuzzy
  rcases fuzzyFold_spec "aer" Aspect.values 0 none with ⟨-, hall⟩ |
    ⟨l1, v, l2, hsplit, heq, -, hl1, -⟩
  · exfalso
    have := hall Aspect.Aer (by decide)
    rw [fuzzyScore_aer] at this
    norm_num at this
  · have hv : v = Aspect.Aer := by
      cases l1 with
      | nil =>
        have : Aspect.values.head? = some v := by rw [hsplit]; rfl
        have hh : Aspect.values.head? = some Aspect.Aer := rfl
        rw [hh] at this
        exact (Option.some.inj this).symm
      | cons w l1' =>
        exfalso
        have hw : Aspect.values.head? = some w := by rw [hsplit]; rfl
        have hh : Aspect.values.head? = some Aspect.Aer := rfl
        rw [hh] at hw
        have hwa : w = Aspect.Aer := (Option.some.inj hw).symm
        have := hl1 w (List.mem_cons_self _ _)
        rw [hwa, fuzzyScore_aer] at this
        exact absurd (lt_of_lt_of_le this (fuzzyScore_le_one "aer" v)) (lt_irrefl 1)
    subst hv
    rw [heq, fuzzyScore_aer]

/-- Witness for C4 (amended) at the ASCII input `"aer"`. -/
theorem claim_C4_witness :
    asciiOnly "aer" ∧
    ((1 : ℚ) = fuzzyScore "aer" Aspect.Aer ∧ (0 : ℚ) < 1 ∧
    ∃ l1 l2, Aspect.values = l1 ++ Aspect.Aer :: l2 ∧
      (∀ x ∈ l1, fuzzyScore "aer" x < 1) ∧ (∀ x ∈ l2, fuzzyScore "aer" x ≤ 1)) :=
  ⟨by decide, (claim_C4_amended "aer" (by decide)).2 Aspect.Aer 1 from_str_fuzzy_aer⟩

/-! ## Snapshot parsing: claims C5 and C10 -/

theorem parse_isErr_iff (v : NValue) : isErr (parse_aspect v) = true ↔ specRecordBad v := by
  cases v with
  | compound d =>
    simp only [specRecordBad]
    cases hk : lookupS d "key" with
    | none =>
      have hv : parse_aspect (.compound d) = .error "Aspect key is missing or not a string" := by
        simp only [parse_aspect]
        rw [hk]
      rw [hv]
      refine iff_of_true rfl ?_
      left
      intro s
      simp
    | some w =>
      cases w with
      | str s =>
        cases ham : lookupS d "amount" with
        | none =>
          have hv : parse_aspect (.compound d) = .error "Aspect amount is missing or not a short" := by
            simp only [parse_aspect]
            rw [hk, ham]
          rw [hv]
          refine iff_of_true rfl ?_
          right; left
          intro i
          simp
        | some u =>
          cases u with
          | short i =>
            have hv1 : parse_aspect (.compound d) =
                (if i < 0 then Except.error "Aspect amount is negative"
                 else match Aspect.get_by_key s with
                   | some a => Except.ok (a, i.toNat)
                   | none => Except.error ("Aspect inventory contains unknown aspect " ++ s)) := by
              simp only [parse_aspect]
              rw [hk, ham]
            by_cases hi : i < 0
            · rw [if_pos hi] at hv1
              rw [hv1]
              refine iff_of_true rfl ?_
              right; right; left
              exact ⟨i, rfl, hi⟩
            · rw [if_neg hi] at hv1
              cases hg : Aspect.get_by_key s with
              | none =>
                rw [hg] at hv1
                rw [hv1]
                refine iff_of_true rfl ?_
                right; right; right
                exact ⟨s, rfl, hg⟩
              | some a =>
                rw [hg] at hv1
                have hv2 : parse_aspect (.compound d) = .ok (a, i.toNat) := hv1
                rw [hv2]
                refine iff_of_false (by simp [isErr]) ?_
                rintro (h1 | h2 | ⟨i2, hi2, hneg⟩ | ⟨s2, hs2, hg2⟩)
                · exact h1 s rfl
                · exact h2 i rfl
                · have hii := NValue.short.inj (Option.some.inj hi2)
                  subst hii
                  exact hi hneg
                · have hss := NValue.str.inj (Option.some.inj hs2)
                  subst hss
                  rw [hg] at hg2
                  cases hg2
          | str s2 =>
            have hv : parse_aspect (.compound d) = .error "Aspect amount is missing or not a short" := by
              simp only [parse_aspect]
              rw [hk, ham]
            rw [hv]
            refine iff_of_true rfl ?_
            right; left
            intro i
            simp
          | list l =>
            have hv : parse_aspect (.compound d) = .error "Aspect amount is missing or not a short" := by
              simp only [parse_aspect]
              rw [hk, ham]
            rw [hv]
            refine iff_of_true rfl ?_
            right; left
            intro i
            simp
          | compound dd =>
            have hv : parse_aspect (.compound d) = .error "Aspect amount is missing or not a short" := by
              simp only [parse_aspect]
              rw [hk, ham]
            rw [hv]
            refine iff_of_true rfl ?_
            right; left
            intro i
            simp
          | other =>
            have hv : parse_aspect (.compound d) = .error "Aspect amount is missing or not a short" := by
              simp only [parse_aspect]
              rw [hk, ham]
            rw [hv]
            refine iff_of_true rfl ?_
            right; left
            intro i
            simp
      | short i2 =>
        have hv : parse_aspect (.compound d) = .error "Aspect key is missing or not a string" := by
          simp only [parse_aspect]
          rw [hk]
        rw [hv]
        refine iff_of_true rfl ?_
        left
        intro s
        simp
      | list l =>
        have hv : parse_aspect (.compound d) = .error "Aspect key is missing or not a string" := by
          simp only [parse_aspect]
          rw [hk]
        rw [hv]
        refine iff_of_true rfl ?_
        left
        intro s
        simp
      | compound dd =>
        have hv : parse_aspect (.compound d) = .error "Aspect key is missing or not a string" := by
          simp only [parse_aspect]
          rw [hk]
        rw [hv]
        refine iff_of_true rfl ?_
        left
        intro s
        simp
      | other =>
        have hv : parse_aspect (.compound d) = .error "Aspect key is missing or not a string" := by
          simp only [parse_aspect]
          rw [hk]
        rw [hv]
        refine iff_of_true rfl ?_
        left
        intro s
        simp
  | short i => simp [parse_aspect, specRecordBad, isErr]
  | str s => simp [parse_aspect, specRecordBad, isErr]
  | list l => simp [parse_aspect, specRecordBad, isErr]
  | other => simp [parse_aspect, specRecordBad, isErr]

theorem parseInto_isErr_iff : ∀ (vs : List NValue) (m : List (Aspect × Nat)),
    isErr (parseInto vs m) = true ↔ ∃ v ∈ vs, specRecordBad v := by
  intro vs
  induction vs with
  | nil => intro m; simp [parseInto, isErr]
  | cons v rest ih =>
    intro m
    simp only [parseInto]
    cases hp : parse_aspect v with
    | error e =>
      simp only [isErr, true_iff]
      exact ⟨v, by simp, (parse_isErr_iff v).mp (by rw [hp]; rfl)⟩
    | ok r =>
      obtain ⟨a, n⟩ := r
      rw [ih]
      constructor
      · rintro ⟨v', hv', hbad⟩
        exact ⟨v', by simp [hv'], hbad⟩
      · rintro ⟨v', hv', hbad⟩
        rcases List.mem_cons.mp hv' with rfl | hv'
        · exfalso
          have hbad' : isErr (parse_aspect v') = true := (parse_isErr_iff v').mpr hbad
          rw [hp] at hbad'
          cases hbad'
        · exact ⟨v', hv', hbad⟩

/-- C5: cost-model construction from a decoded snapshot fails exactly
when the snapshot lacks the expected list of records, or some record is
not a compound with a string `key` and short `amount`, or an amount is
negative, or a key resolves to no catalog node; otherwise it succeeds. -/
theorem claim_C5 (b : NBlob) :
    isErr (AspectInventory.from_nbt b) = true ↔ specMalformed b := by
  simp only [specMalformed]
  cases hl : lookupS b.entries "THAUMCRAFT.ASPECTS" with
  | none =>
    have hv : AspectInventory.from_nbt b =
        .error "The NBT structure does not contain a valid list of ThaumCraft aspects" := by
      unfold AspectInventory.from_nbt
      rw [hl]
    rw [hv]
    refine iff_of_true rfl ?_
    left
    intro vs
    simp
  | some w =>
    cases w with
    | list vs =>
      have hv1 : AspectInventory.from_nbt b =
          (match parseInto vs [] with
           | Except.error e => Except.error e
           | Except.ok m => Except.ok ⟨m, maxValues m⟩) := by
        unfold AspectInventory.from_nbt
        rw [hl]
      cases hp : parseInto vs [] with
      | error e =>
        rw [hp] at hv1
        have hv2 : AspectInventory.from_nbt b = .error e := hv1
        rw [hv2]
        refine iff_of_true rfl ?_
        right
        exact ⟨vs, rfl, (parseInto_isErr_iff vs []).mp (by rw [hp]; rfl)⟩
      | ok m =>
        rw [hp] at hv1
        have hv2 : AspectInventory.from_nbt b = .ok ⟨m, maxValues m⟩ := hv1
        rw [hv2]
        refine iff_of_false (by simp [isErr]) ?_
        rintro (h1 | ⟨vs2, hvs2, v, hv2, hbad⟩)
        · exact h1 vs rfl
        · have hveq : vs2 = vs := (NValue.list.inj (Option.some.inj hvs2)).symm
          subst hveq
          have hcontra : isErr (parseInto vs2 []) = true :=
            (parseInto_isErr_iff vs2 []).mpr ⟨v, hv2, hbad⟩
          rw [hp] at hcontra
          cases hcontra
    | short i =>
      have hv : AspectInventory.from_nbt b =
          .error "The NBT structure does not contain a valid list of ThaumCraft aspects" := by
        unfold AspectInventory.from_nbt
        rw [hl]
      rw [hv]
      refine iff_of_true rfl ?_
      left
      intro vs
      simp
    | str s =>
      have hv : AspectInventory.from_nbt b =
          .error "The NBT structure does not contain a valid list of ThaumCraft aspects" := by
        unfold AspectInventory.from_nbt
        rw [hl]
      rw [hv]
      refine iff_of_true rfl ?_
      left
      intro vs
      simp
    | compound d =>
      have hv : AspectInventory.from_nbt b =
          .error "The NBT structure does not contain a valid list of ThaumCraft aspects" := by
        unfold AspectInventory.from_nbt
        rw [hl]
      rw [hv]
      refine iff_of_true rfl ?_
      left
      intro vs
      simp
    | other =>
      have hv : AspectInventory.from_nbt b =
          .error "The NBT structure does not contain a valid list of ThaumCraft aspects" := by
        unfold AspectInventory.from_nbt
        rw [hl]
      rw [hv]
      refine iff_of_true rfl ?_
      left
      intro vs
      simp

theorem lookupA_insertAmap (m : List (Aspect × Nat)) (a : Aspect) (n : Nat) (k : Aspect) :
    lookupA (insertAmap m a n) k = if a = k then some n else lookupA m k := by
  induction m with
  | nil =>
    rw [show insertAmap [] a n = [(a, n)] from rfl, lookupA_cons, lookupA_nil]
  | cons p rest ih =>
    obtain ⟨pk, pv⟩ := p
    rw [show insertAmap ((pk, pv) :: rest) a n =
        (if pk = a then (pk, n) :: rest else (pk, pv) :: insertAmap rest a n) from rfl]
    by_cases hpa : pk = a
    · rw [if_pos hpa]
      subst hpa
      rw [lookupA_cons, lookupA_cons]
      by_cases hk : pk = k
      · rw [if_pos hk, if_pos hk]
      · rw [if_neg hk, if_neg hk, if_neg hk]
    · rw [if_neg hpa, lookupA_cons, lookupA_cons]
      by_cases hk : pk = k
      · rw [if_pos hk, if_pos hk, if_neg (show ¬a = k from fun h => hpa (hk.trans h.symm))]
      · rw [if_neg hk, if_neg hk, ih]

theorem mem_insertAmap {m : List (Aspect × Nat)} {a : Aspect} {n : Nat} {p : Aspect × Nat}
    (hp : p ∈ insertAmap m a n) : p ∈ m ∨ p = (a, n) := by
  induction m with
  | nil =>
    rw [show insertAmap [] a n = [(a, n)] from rfl] at hp
    right
    simpa using hp
  | cons q rest ih =>
    obtain ⟨qk, qv⟩ := q
    rw [show insertAmap ((qk, qv) :: rest) a n =
        (if qk = a then (qk, n) :: rest else (qk, qv) :: insertAmap rest a n) from rfl] at hp
    by_cases hqa : qk = a
    · rw [if_pos hqa] at hp
      subst hqa
      rcases List.mem_cons.mp hp with rfl | hmem
      · right; rfl
      · left; exact List.mem_cons_of_mem _ hmem
    · rw [if_neg hqa] at hp
      rcases List.mem_cons.mp hp with rfl | hmem
      · left; exact List.mem_cons_self _ _
      · rcases ih hmem with h | h
        · left; exact List.mem_cons_of_mem _ h
        · right; exact h

theorem getLast?_cons_or : ∀ (l : List Nat) (n : Nat),
    (n :: l).getLast? = Option.or l.getLast? (some n) := by
  intro l
  induction l with
  | nil => intro n; rfl
  | cons x xs ih =>
    intro n
    rw [List.getLast?_cons_cons, ih x]
    cases xs.getLast? <;> rfl

theorem parseInto_spec : ∀ (vs : List NValue) (m : List (Aspect × Nat)),
    (∀ v ∈ vs, isErr (parse_aspect v) = false) →
    ∃ m', parseInto vs m = .ok m' ∧
      ∀ a, lookupA m' a = Option.or (selAmounts vs a).getLast? (lookupA m a) := by
  intro vs
  induction vs with
  | nil =>
    intro m _
    exact ⟨m, rfl, fun a => rfl⟩
  | cons v rest ih =>
    intro m hok
    have hv := hok v (List.mem_cons_self _ _)
    cases hp : parse_aspect v with
    | error e => rw [hp] at hv; cases hv
    | ok r =>
      obtain ⟨k, n⟩ := r
      obtain ⟨m', hm', hchar⟩ :=
        ih (insertAmap m k n) (fun v' hv' => hok v' (List.mem_cons_of_mem _ hv'))
      have hstep : parseInto (v :: rest) m = parseInto rest (insertAmap m k n) := by
        simp only [parseInto]
        rw [hp]
      refine ⟨m', by rw [hstep]; exact hm', fun a => ?_⟩
      rw [hchar a, lookupA_insertAmap]
      by_cases hka : k = a
      · have h2 : selAmounts (v :: rest) a = n :: selAmounts rest a := by
          simp only [selAmounts, List.filterMap_cons, hp]
          simp [hka, selAmounts]
        rw [h2, if_pos hka, getLast?_cons_or]
        cases (selAmounts rest a).getLast? <;> rfl
      · have h2 : selAmounts (v :: rest) a = selAmounts rest a := by
          simp only [selAmounts, List.filterMap_cons, hp]
          simp [hka, selAmounts]
        rw [h2, if_neg hka]

/-- C10: a snapshot whose records are all individually well-formed is
accepted even when several records name the same aspect key; the
resulting inventory maps each aspect to the count of the last record
naming it (duplicates are silently collapsed, not reported). -/
theorem claim_C10 (b : NBlob) (vs : List NValue)
    (hl : lookupS b.entries "THAUMCRAFT.ASPECTS" = some (.list vs))
    (hok : ∀ v ∈ vs, isErr (parse_aspect v) = false) :
    ∃ inv, AspectInventory.from_nbt b = .ok inv ∧
      ∀ a n, (selAmounts vs a).getLast? = some n → inv.amount_of a = n := by
  obtain ⟨m', hm', hchar⟩ := parseInto_spec vs [] hok
  have hv1 : AspectInventory.from_nbt b =
      (match parseInto vs [] with
       | Except.error e => Except.error e
       | Except.ok m => Except.ok ⟨m, maxValues m⟩) := by
    unfold AspectInventory.from_nbt
    rw [hl]
  rw [hm'] at hv1
  refine ⟨⟨m', maxValues m'⟩, hv1, ?_⟩
  intro a n hlast
  unfold AspectInventory.amount_of
  have := hchar a
  rw [hlast] at this
  simp only at this ⊢
  rw [this]
  rfl

/-- Witness for C10 at a snapshot with two records for key `aer`. -/
theorem claim_C10_witness :
    ∃ inv, AspectInventory.from_nbt dupBlob = .ok inv ∧
      ∀ a n, (selAmounts dupVs a).getLast? = some n → inv.amount_of a = n :=
  claim_C10 dupBlob dupVs rfl (by decide)

theorem maxValues_ge (m : List (Aspect × Nat)) : ∀ p ∈ m, p.2 ≤ maxValues m := by
  induction m with
  | nil => simp
  | cons q rest ih =>
    intro p hp
    rcases List.mem_cons.mp hp with rfl | hp
    · exact Nat.le_max_left _ _
    · exact le_trans (ih p hp) (Nat.le_max_right _ _)

theorem maxValues_le {m : List (Aspect × Nat)} {c : Nat} (h : ∀ p ∈ m, p.2 ≤ c) :
    maxValues m ≤ c := by
  induction m with
  | nil => exact Nat.zero_le c
  | cons q rest ih =>
    have h1 : q.2 ≤ c := h q (List.mem_cons_self _ _)
    have h2 : maxValues rest ≤ c := ih (fun p hp => h p (List.mem_cons_of_mem _ hp))
    show max q.2 (maxValues rest) ≤ c
    omega

theorem parse_ok_amount {v : NValue} {a : Aspect} {n : Nat} (h : parse_aspect v = .ok (a, n)) :
    ∃ d i, v = NValue.compound d ∧ lookupS d "amount" = some (.short i) ∧ ¬i < 0 ∧ n = i.toNat := by
  cases v with
  | compound d =>
    cases hk : lookupS d "key" with
    | none =>
      have hv : parse_aspect (.compound d) = .error "Aspect key is missing or not a string" := by
        simp only [parse_aspect]
        rw [hk]
      rw [hv] at h
      cases h
    | some w =>
      cases w with
      | str s =>
        cases ham : lookupS d "amount" with
        | none =>
          have hv : parse_aspect (.compound d) = .error "Aspect amount is missing or not a short" := by
            simp only [parse_aspect]
            rw [hk, ham]
          rw [hv] at h
          cases h
        | some u =>
          cases u with
          | short i =>
            have hv1 : parse_aspect (.compound d) =
                (if i < 0 then Except.error "Aspect amount is negative"
                 else match Aspect.get_by_key s with
                   | some a => Except.ok (a, i.toNat)
                   | none => Except.error ("Aspect inventory contains unknown aspect " ++ s)) := by
              simp only [parse_aspect]
              rw [hk, ham]
            by_cases hi : i < 0
            · rw [if_pos hi] at hv1
              rw [hv1] at h
              cases h
            · rw [if_neg hi] at hv1
              cases hg : Aspect.get_by_key s with
              | none =>
                rw [hg] at hv1
                have hv2 : parse_aspect (.compound d) =
                    .error ("Aspect inventory contains unknown aspect " ++ s) := hv1
                rw [hv2] at h
                cases h
              | some a2 =>
                rw [hg] at hv1
                have hv2 : parse_aspect (.compound d) = .ok (a2, i.toNat) := hv1
                rw [hv2] at h
                have hpair := Except.ok.inj h
                rw [Prod.mk.injEq] at hpair
                obtain ⟨-, h2⟩ := hpair
                exact ⟨d, i, rfl, ham, hi, h2.symm⟩
          | str s2 =>
            have hv : parse_aspect (.compound d) = .error "Aspect amount is missing or not a short" := by
              simp only [parse_aspect]
              rw [hk, ham]
            rw [hv] at h
            cases h
          | list l =>
            have hv : parse_aspect (.compound d) = .error "Aspect amount is missing or not a short" := by
              simp only [parse_aspect]
              rw [hk, ham]
            rw [hv] at h
            cases h
          | compound dd =>
            have hv : parse_aspect (.compound d) = .error "Aspect amount is missing or not a short" := by
              simp only [parse_aspect]
              rw [hk, ham]
            rw [hv] at h
            cases h
          | other =>
            have hv : parse_aspect (.compound d) = .error "Aspect amount is missing or not a short" := by
              simp only [parse_aspect]
              rw [hk, ham]
            rw [hv] at h
            cases h
      | short i2 =>
        have hv : parse_aspect (.compound d) = .error "Aspect key is missing or not a string" := by
          simp only [parse_aspect]
          rw [hk]
        rw [hv] at h
        cases h
      | list l =>
        have hv : parse_aspect (.compound d) = .error "Aspect key is missing or not a string" := by
          simp only [parse_aspect]
          rw [hk]
        rw [hv] at h
        cases h
      | compound dd =>
        have hv : parse_aspect (.compound d) = .error "Aspect key is missing or not a string" := by
          simp only [parse_aspect]
          rw [hk]
        rw [hv] at h
        cases h
      | other =>
        have hv : parse_aspect (.compound d) = .error "Aspect key is missing or not a string" := by
          simp only [parse_aspect]
          rw [hk]
        rw [hv] at h
        cases h
  | short i => exact absurd h (by simp [parse_aspect])
  | str s => exact absurd h (by simp [parse_aspect])
  | list l => exact absurd h (by simp [parse_aspect])
  | other => exact absurd h (by simp [parse_aspect])

theorem parseInto_amount_le : ∀ (vs : List NValue) (m m' : List (Aspect × Nat)),
    parseInto vs m = .ok m' → (∀ p ∈ m, p.2 ≤ 32767) → listShortsOK vs →
    ∀ p ∈ m', p.2 ≤ 32767 := by
  intro vs
  induction vs with
  | nil =>
    intro m m' h hm _
    cases h
    exact hm
  | cons v rest ih =>
    intro m m' h hm hsh
    cases hp : parse_aspect v with
    | error e =>
      have hstep : parseInto (v :: rest) m = .error e := by
        simp only [parseInto]
        rw [hp]
      rw [hstep] at h
      cases h
    | ok r =>
      obtain ⟨a, n⟩ := r
      have hstep : parseInto (v :: rest) m = parseInto rest (insertAmap m a n) := by
        simp only [parseInto]
        rw [hp]
      rw [hstep] at h
      have hn : n ≤ 32767 := by
        obtain ⟨d, i, rfl, ham, hneg, rfl⟩ := parse_ok_amount hp
        have := hsh _ (List.mem_cons_self _ _) d rfl i ham
        omega
      refine ih _ _ h (fun p hp' => ?_) (fun v' hv' => hsh v' (List.mem_cons_of_mem _ hv'))
      rcases mem_insertAmap hp' with h' | rfl
      · exact hm p h'
      · exact hn

/-- Every inventory `from_nbt` produces from a snapshot whose shorts are
in `i16` range is well-formed: amounts fit in 15 bits and the cached
maximum dominates every entry.  This discharges the `wf` hypothesis of
the pricing claim for every actually constructible inventory. -/
theorem from_nbt_wf (b : NBlob) (inv : AspectInventory)
    (hsh : ∀ vs, lookupS b.entries "THAUMCRAFT.ASPECTS" = some (.list vs) → listShortsOK vs)
    (h : AspectInventory.from_nbt b = .ok inv) : inv.wf := by
  cases hl : lookupS b.entries "THAUMCRAFT.ASPECTS" with
  | none =>
    have hv : AspectInventory.from_nbt b =
        .error "The NBT structure does not contain a valid list of ThaumCraft aspects" := by
      unfold AspectInventory.from_nbt
      rw [hl]
    rw [hv] at h
    cases h
  | some w =>
    cases w with
    | list vs =>
      have hv1 : AspectInventory.from_nbt b =
          (match parseInto vs [] with
           | Except.error e => Except.error e
           | Except.ok m => Except.ok ⟨m, maxValues m⟩) := by
        unfold AspectInventory.from_nbt
        rw [hl]
      cases hp : parseInto vs [] with
      | error e =>
        rw [hp] at hv1
        have hv2 : AspectInventory.from_nbt b = .error e := hv1
        rw [hv2] at h
        cases h
      | ok m =>
        rw [hp] at hv1
        have hv2 : AspectInventory.from_nbt b = .ok ⟨m, maxValues m⟩ := hv1
        rw [hv2] at h
        cases h
        constructor
        · exact maxValues_le (parseInto_amount_le vs [] m hp (by simp) (hsh vs hl))
        · exact fun p hp' => maxValues_ge m p hp'
    | short i =>
      have hv : AspectInventory.from_nbt b =
          .error "The NBT structure does not contain a valid list of ThaumCraft aspects" := by
        unfold AspectInventory.from_nbt
        rw [hl]
      rw [hv] at h
      cases h
    | str s =>
      have hv : AspectInventory.from_nbt b =
          .error "The NBT structure does not contain a valid list of ThaumCraft aspects" := by
        unfold AspectInventory.from_nbt
        rw [hl]
      rw [hv] at h
      cases h
    | compound d =>
      have hv : AspectInventory.from_nbt b =
          .error "The NBT structure does not contain a valid list of ThaumCraft aspects" := by
        unfold AspectInventory.from_nbt
        rw [hl]
      rw [hv] at h
      cases h
    | other =>
      have hv : AspectInventory.from_nbt b =
          .error "The NBT structure does not contain a valid list of ThaumCraft aspects" := by
        unfold AspectInventory.from_nbt
        rw [hl]
      rw [hv] at h
      cases h

/-! ## Search loop lemmas: claims C1, C2, C7, C8 -/

theorem solveLoop_nil (g : AGraph) (inv : AspectInventory) (desired : Fin 256) (endA : Aspect)
    (paths : List (List Aspect)) (lowest : Nat) :
    solveLoop g inv desired endA [] paths lowest = (paths, lowest) := by
  simp [solveLoop]

theorem expandFull_eq_map (g : AGraph) (inv : AspectInventory) (s : SolverState) :
    expandFull g inv s = (neighbours g s.node).map fun nb =>
      ⟨nb, (inv.price_of nb + s.price) % 4294967296, s.distance + 1, s.path ++ [nb]⟩ := by
  unfold expandFull expandItem
  induction neighbours g s.node with
  | nil => rfl
  | cons nb rest ih =>
    rw [List.filterMap_cons, List.map_cons]
    have hc : (inv.price_of nb + s.price) % 4294967296 ≤ 4294967295 := by
      have := Nat.mod_lt (inv.price_of nb + s.price) (show 0 < 4294967296 by omega)
      omega
    rw [if_pos hc, ih]

theorem mem_expandFull {g : AGraph} {inv : AspectInventory} {s t : SolverState} :
    t ∈ expandFull g inv s ↔ ∃ nb ∈ neighbours g s.node,
      t = ⟨nb, (inv.price_of nb + s.price) % 4294967296, s.distance + 1, s.path ++ [nb]⟩ := by
  rw [expandFull_eq_map, List.mem_map]
  constructor
  · rintro ⟨nb, hnb, rfl⟩
    exact ⟨nb, hnb, rfl⟩
  · rintro ⟨nb, hnb, rfl⟩
    exact ⟨nb, hnb, rfl⟩

theorem remD_eq_zero_iff (desired d : Fin 256) : remD desired d = 0 ↔ d = desired := by
  have h1 := d.isLt
  have h2 := desired.isLt
  unfold remD
  constructor
  · intro h
    exact Fin.ext (by omega)
  · intro h
    subst h
    omega

theorem remD_succ (desired d : Fin 256) (h : d ≠ desired) :
    remD desired (d + 1) = remD desired d - 1 ∧ 1 ≤ remD desired d := by
  have h1 := d.isLt
  have h2 := desired.isLt
  have hne : d.val ≠ desired.val := fun hh => h (Fin.ext hh)
  have hone : ((1 : Fin 256)).val = 1 := rfl
  have hadd : (d + 1).val = (d.val + 1) % 256 := by rw [Fin.val_add, hone]
  unfold remD
  rw [hadd]
  omega

theorem price_of_le (inv : AspectInventory) (hwf : inv.wf) (a : Aspect) :
    inv.price_of a ≤ 65535 := by
  unfold AspectInventory.price_of
  split
  · exact le_refl _
  · obtain ⟨hmax, -⟩ := hwf
    omega

theorem sum_map_const {α : Type} (l : List α) (f : α → Nat) (c : Nat)
    (h : ∀ x ∈ l, f x = c) : (l.map f).sum = l.length * c := by
  induction l with
  | nil => simp
  | cons a rest ih =>
    rw [List.map_cons, List.sum_cons, List.length_cons, ih (fun x hx => h x (List.mem_cons_of_mem _ hx)),
      h a (List.mem_cons_self _ _), Nat.succ_mul]
    omega

theorem solveLoop_finals (g : AGraph) (inv : AspectInventory) (desired : Fin 256) (endA : Aspect) :
    ∀ (qs : List SolverState) (paths : List (List Aspect)) (lowest : Nat),
    (∀ s ∈ qs, s.distance = desired ∧ s.path.getLast? = some s.node ∧ s.price = pathCost inv s.path) →
    solveLoop g inv desired endA qs paths lowest =
      runCands inv endA (qs.map fun s => s.path) (paths, lowest) := by
  intro qs
  induction qs with
  | nil =>
    intro paths lowest _
    rw [solveLoop_nil]
    rfl
  | cons s qs ih =>
    intro paths lowest hco
    obtain ⟨hdist, hlast, hprice⟩ := hco s (List.mem_cons_self _ _)
    have hco' : ∀ t ∈ qs, t.distance = desired ∧ t.path.getLast? = some t.node ∧
        t.price = pathCost inv t.path := fun t ht => hco t (List.mem_cons_of_mem _ ht)
    rw [List.map_cons]
    rw [show runCands inv endA (s.path :: qs.map fun t => t.path) (paths, lowest) =
        (if s.path.getLast? = some endA ∧ pathCost inv s.path ≤ lowest then
          (if pathCost inv s.path < lowest then
            runCands inv endA (qs.map fun t => t.path) ([s.path], pathCost inv s.path)
          else runCands inv endA (qs.map fun t => t.path) (paths ++ [s.path], lowest))
        else runCands inv endA (qs.map fun t => t.path) (paths, lowest)) from rfl]
    rw [solveLoop]
    simp only [dif_pos hdist]
    rw [hlast, ← hprice]
    simp only [Option.some.injEq]
    by_cases hc : s.node = endA ∧ s.price ≤ lowest
    · rw [if_pos hc, if_pos hc]
      by_cases hs : s.price < lowest
      · rw [if_pos hs, if_pos hs, ih _ _ hco', hprice]
      · rw [if_neg hs, if_neg hs, ih _ _ hco']
    · rw [if_neg hc, if_neg hc, ih _ _ hco']

theorem solveLoop_expand (g : AGraph) (inv : AspectInventory) (desired : Fin 256) (endA : Aspect)
    (d : Nat) (hd : 1 ≤ d) :
    ∀ (qs acc : List SolverState) (paths : List (List Aspect)),
    (∀ s ∈ qs, remD desired s.distance = d) →
    (∀ s ∈ acc, remD desired s.distance = d - 1) →
    solveLoop g inv desired endA (qs ++ acc) paths 4294967295 =
      solveLoop g inv desired endA (acc ++ qs.flatMap (expandFull g inv)) paths 4294967295 := by
  intro qs
  induction qs with
  | nil =>
    intro acc paths _ _
    rw [List.nil_append, List.flatMap_nil, List.append_nil]
  | cons s qs ih =>
    intro acc paths hqs hacc
    have hs := hqs s (List.mem_cons_self _ _)
    have hne : s.distance ≠ desired := by
      intro h
      rw [(remD_eq_zero_iff desired s.distance).mpr h] at hs
      omega
    rw [List.cons_append, solveLoop]
    simp only [dif_neg hne]
    rw [show expandItem g inv 4294967295 s = expandFull g inv s from rfl]
    rw [List.append_assoc]
    rw [ih (acc ++ expandFull g inv s) paths
      (fun t ht => hqs t (List.mem_cons_of_mem _ ht))
      (fun t ht => by
        rcases List.mem_append.mp ht with h | h
        · exact hacc t h
        · obtain ⟨nb, -, rfl⟩ := mem_expandFull.mp h
          obtain ⟨h1, -⟩ := remD_succ desired s.distance hne
          rw [h1, hs])]
    rw [List.flatMap_cons, List.append_assoc]

theorem pathCost_append_single (inv : AspectInventory) (p : List Aspect) (nb : Aspect)
    (h : p ≠ []) : pathCost inv (p ++ [nb]) = pathCost inv p + inv.price_of nb := by
  unfold pathCost
  cases p with
  | nil => exact absurd rfl h
  | cons x xs =>
    rw [List.cons_append]
    have h1 : (x :: (xs ++ [nb])).drop 1 = xs ++ [nb] := rfl
    have h2 : (x :: xs).drop 1 = xs := rfl
    rw [h1, h2, List.map_append, List.sum_append]
    simp

theorem frontiers_distance (g : AGraph) (inv : AspectInventory) (start : Aspect) :
    ∀ k, ∀ s ∈ frontiers g inv start k, s.distance.val = (1 + k) % 256 := by
  intro k
  induction k with
  | zero =>
    intro s hs
    have : s = ⟨start, 0, 1, [start]⟩ := List.mem_singleton.mp hs
    subst this
    rfl
  | succ k ih =>
    intro s hs
    simp only [frontiers] at hs
    rw [List.mem_flatMap] at hs
    obtain ⟨t, ht, hst⟩ := hs
    obtain ⟨nb, -, rfl⟩ := mem_expandFull.mp hst
    have hone : ((1 : Fin 256)).val = 1 := rfl
    show (t.distance + 1).val = (1 + (k + 1)) % 256
    rw [Fin.val_add, hone, ih t ht]
    omega

theorem frontiers_coherent (g : AGraph) (inv : AspectInventory) (hwf : inv.wf) (start : Aspect) :
    ∀ k, k ≤ 255 → ∀ s ∈ frontiers g inv start k,
      s.path.length = k + 1 ∧ s.path.head? = some start ∧ s.path.getLast? = some s.node ∧
      List.Chain' (adjacent g) s.path ∧ s.price = pathCost inv s.path ∧ s.price ≤ k * 65535 := by
  intro k
  induction k with
  | zero =>
    intro _ s hs
    have : s = ⟨start, 0, 1, [start]⟩ := List.mem_singleton.mp hs
    subst this
    exact ⟨rfl, rfl, rfl, List.chain'_singleton start, rfl, Nat.le_refl 0⟩
  | succ k ih =>
    intro hk s hs
    have hk' : k ≤ 255 := by omega
    simp only [frontiers] at hs
    rw [List.mem_flatMap] at hs
    obtain ⟨t, ht, hst⟩ := hs
    obtain ⟨nb, hnb, rfl⟩ := mem_expandFull.mp hst
    obtain ⟨hlen, hhead, hlast, hchain, hprice, hbound⟩ := ih hk' t ht
    have hne : t.path ≠ [] := by
      intro h
      rw [h] at hlen
      cases hlen
    have hplt : inv.price_of nb ≤ 65535 := price_of_le inv hwf nb
    have hsum : inv.price_of nb + t.price ≤ (k + 1) * 65535 := by
      rw [Nat.succ_mul]
      omega
    have hsmall : inv.price_of nb + t.price < 4294967296 := by
      have h256 : (k + 1) * 65535 ≤ 256 * 65535 := Nat.mul_le_mul_right _ (by omega)
      omega
    have hmod : (inv.price_of nb + t.price) % 4294967296 = inv.price_of nb + t.price :=
      Nat.mod_eq_of_lt hsmall
    refine ⟨?_, ?_, ?_, ?_, ?_, ?_⟩
    · show (t.path ++ [nb]).length = (k + 1) + 1
      rw [List.length_append, hlen]
      rfl
    · show (t.path ++ [nb]).head? = some start
      rw [List.head?_append, hhead]
      rfl
    · show (t.path ++ [nb]).getLast? = some nb
      exact List.getLast?_concat _
    · show List.Chain' (adjacent g) (t.path ++ [nb])
      rw [List.chain'_append]
      refine ⟨hchain, List.chain'_singleton nb, ?_⟩
      intro x hx y hy
      rw [hlast] at hx
      have hx' : x = t.node := by
        cases hx
        rfl
      have hy' : y = nb := by
        cases hy
        rfl
      subst hx'
      subst hy'
      exact hnb
    · show (inv.price_of nb + t.price) % 4294967296 = pathCost inv (t.path ++ [nb])
      rw [hmod, pathCost_append_single inv t.path nb hne, hprice]
      omega
    · show (inv.price_of nb + t.price) % 4294967296 ≤ (k + 1) * 65535
      rw [hmod]
      omega

theorem frontiers_complete (g : AGraph) (inv : AspectInventory) (hwf : inv.wf) (start : Aspect) :
    ∀ k, k ≤ 255 → ∀ p : List Aspect, p.length = k + 1 → p.head? = some start →
      List.Chain' (adjacent g) p → ∃ s ∈ frontiers g inv start k, s.path = p := by
  intro k
  induction k with
  | zero =>
    intro _ p hlen hhead _
    cases p with
    | nil => cases hhead
    | cons a rest =>
      have hr : rest = [] := by
        rw [List.length_cons] at hlen
        exact List.eq_nil_of_length_eq_zero (by omega)
      subst hr
      have ha : a = start := by
        have : some a = some start := hhead
        exact Option.some.inj this
      subst ha
      exact ⟨⟨a, 0, 1, [a]⟩, List.mem_singleton.mpr rfl, rfl⟩
  | succ k ih =>
    intro hk p hlen hhead hchain
    have hk' : k ≤ 255 := by omega
    have hne : p ≠ [] := by
      intro h
      rw [h] at hlen
      cases hlen
    obtain ⟨c, hc⟩ : ∃ c, p.getLast? = some c := by
      cases hl : p.getLast? with
      | none => exact absurd (List.getLast?_eq_none_iff.mp hl) hne
      | some c => exact ⟨c, rfl⟩
    have hdecomp : p.dropLast ++ [c] = p := List.dropLast_append_getLast? c hc
    have hql : p.dropLast.length = k + 1 := by
      rw [List.length_dropLast, hlen]
      omega
    have hqne : p.dropLast ≠ [] := by
      intro h
      rw [h] at hql
      cases hql
    have hqhead : p.dropLast.head? = some start := by
      have hh := hhead
      rw [← hdecomp, List.head?_append] at hh
      cases hqh : p.dropLast.head? with
      | none => exact absurd (List.head?_eq_none_iff.mp hqh) hqne
      | some x =>
        rw [hqh] at hh
        exact hh
    have hsplit := hchain
    rw [← hdecomp, List.chain'_append] at hsplit
    obtain ⟨hqchain, -, hrel⟩ := hsplit
    obtain ⟨t, ht, htp⟩ := ih hk' p.dropLast hql hqhead hqchain
    obtain ⟨-, -, hlast, -, -, -⟩ := frontiers_coherent g inv hwf start k hk' t ht
    have hcnb : c ∈ neighbours g t.node := by
      have hmem : t.node ∈ p.dropLast.getLast? := by
        rw [← htp, hlast]
        rfl
      exact hrel t.node hmem c rfl
    refine ⟨⟨c, (inv.price_of c + t.price) % 4294967296, t.distance + 1, t.path ++ [c]⟩, ?_, ?_⟩
    · show _ ∈ frontiers g inv start (k + 1)
      simp only [frontiers]
      rw [List.mem_flatMap]
      exact ⟨t, ht, mem_expandFull.mpr ⟨c, hcnb, rfl⟩⟩
    · show t.path ++ [c] = p
      rw [htp, hdecomp]

theorem solveLoop_frontiers_step (g : AGraph) (inv : AspectInventory) (start : Aspect)
    (desired : Fin 256) (endA : Aspect) (j : Nat) (hj : j < (desired.val + 255) % 256) :
    solveLoop g inv desired endA (frontiers g inv start j) [] 4294967295 =
      solveLoop g inv desired endA (frontiers g inv start (j + 1)) [] 4294967295 := by
  have hrem : ∀ s ∈ frontiers g inv start j,
      remD desired s.distance = (desired.val + 255) % 256 - j := by
    intro s hs
    have hd := frontiers_distance g inv start j s hs
    have h1 := desired.isLt
    unfold remD
    rw [hd]
    omega
  have hstep := solveLoop_expand g inv desired endA ((desired.val + 255) % 256 - j) (by omega)
    (frontiers g inv start j) [] [] hrem (by simp)
  rw [List.append_nil, List.nil_append] at hstep
  exact hstep

theorem solveLoop_frontiers (g : AGraph) (inv : AspectInventory) (start : Aspect)
    (desired : Fin 256) (endA : Aspect) :
    solveLoop g inv desired endA (frontiers g inv start 0) [] 4294967295 =
      solveLoop g inv desired endA
        (frontiers g inv start ((desired.val + 255) % 256)) [] 4294967295 := by
  suffices h : ∀ j, j ≤ (desired.val + 255) % 256 →
      solveLoop g inv desired endA (frontiers g inv start 0) [] 4294967295 =
        solveLoop g inv desired endA (frontiers g inv start j) [] 4294967295 by
    exact h _ (le_refl _)
  intro j
  induction j with
  | zero => intro _; rfl
  | succ j ihj =>
    intro hj
    rw [ihj (by omega)]
    exact solveLoop_frontiers_step g inv start desired endA j (by omega)

theorem minCostFold_cons (inv : AspectInventory) (endA : Aspect) (p : List Aspect)
    (ps : List (List Aspect)) (low : Nat) :
    minCostFold inv endA (p :: ps) low =
      minCostFold inv endA ps (if p.getLast? = some endA then min low (pathCost inv p) else low) := rfl

theorem minCostFold_le_low (inv : AspectInventory) (endA : Aspect) :
    ∀ (ws : List (List Aspect)) (low : Nat), minCostFold inv endA ws low ≤ low := by
  intro ws
  induction ws with
  | nil => intro low; exact le_refl low
  | cons p ps ih =>
    intro low
    rw [minCostFold_cons]
    refine le_trans (ih _) ?_
    split
    · exact min_le_left _ _
    · exact le_refl low

theorem minCostFold_le_mem (inv : AspectInventory) (endA : Aspect) :
    ∀ (ws : List (List Aspect)) (low : Nat) (p : List Aspect), p ∈ ws →
      p.getLast? = some endA → minCostFold inv endA ws low ≤ pathCost inv p := by
  intro ws
  induction ws with
  | nil => intro low p hp; cases hp
  | cons q ps ih =>
    intro low p hp hl
    rw [minCostFold_cons]
    rcases List.mem_cons.mp hp with rfl | hp
    · rw [if_pos hl]
      exact le_trans (minCostFold_le_low inv endA ps _) (min_le_right _ _)
    · exact ih _ p hp hl

theorem le_minCostFold (inv : AspectInventory) (endA : Aspect) :
    ∀ (ws : List (List Aspect)) (low c : Nat), c ≤ low →
      (∀ p ∈ ws, p.getLast? = some endA → c ≤ pathCost inv p) →
      c ≤ minCostFold inv endA ws low := by
  intro ws
  induction ws with
  | nil => intro low c hc _; exact hc
  | cons q ps ih =>
    intro low c hc hall
    rw [minCostFold_cons]
    refine ih _ c ?_ (fun p hp hl => hall p (List.mem_cons_of_mem _ hp) hl)
    split
    · rename_i hl
      exact le_min hc (hall q (List.mem_cons_self _ _) hl)
    · exact hc

theorem minCostFold_no_end (inv : AspectInventory) (endA : Aspect) :
    ∀ (ws : List (List Aspect)) (low : Nat),
      (∀ p ∈ ws, p.getLast? ≠ some endA) → minCostFold inv endA ws low = low := by
  intro ws
  induction ws with
  | nil => intro low _; rfl
  | cons q ps ih =>
    intro low hall
    rw [minCostFold_cons, if_neg (hall q (List.mem_cons_self _ _))]
    exact ih low (fun p hp => hall p (List.mem_cons_of_mem _ hp))

theorem filterCond_true {inv : AspectInventory} {endA : Aspect} {p : List Aspect} {m : Nat}
    (hl : p.getLast? = some endA) (hc : pathCost inv p = m) :
    (decide (p.getLast? = some endA) && decide (pathCost inv p = m)) = true := by
  rw [decide_eq_true hl, decide_eq_true hc, Bool.and_self]

theorem filterCond_false_cost {inv : AspectInventory} {endA : Aspect} {p : List Aspect} {m : Nat}
    (hc : pathCost inv p ≠ m) :
    ¬(decide (p.getLast? = some endA) && decide (pathCost inv p = m)) = true := by
  intro hcontra
  rw [decide_eq_false hc, Bool.and_false] at hcontra
  cases hcontra

theorem filterCond_false_last {inv : AspectInventory} {endA : Aspect} {p : List Aspect} {m : Nat}
    (hl : p.getLast? ≠ some endA) :
    ¬(decide (p.getLast? = some endA) && decide (pathCost inv p = m)) = true := by
  intro hcontra
  rw [decide_eq_false hl, Bool.false_and] at hcontra
  cases hcontra

theorem runCands_spec (inv : AspectInventory) (endA : Aspect) :
    ∀ (ws : List (List Aspect)) (P : List (List Aspect)) (low : Nat),
    runCands inv endA ws (P, low) =
      ((if minCostFold inv endA ws low < low then [] else P) ++
        ws.filter (fun q => decide (q.getLast? = some endA) &&
          decide (pathCost inv q = minCostFold inv endA ws low)),
       minCostFold inv endA ws low) := by
  intro ws
  induction ws with
  | nil =>
    intro P low
    show (P, low) = _
    rw [show minCostFold inv endA [] low = low from rfl]
    rw [if_neg (lt_irrefl low), List.filter_nil, List.append_nil]
  | cons p ps ih =>
    intro P low
    have hunf : runCands inv endA (p :: ps) (P, low) =
        (if p.getLast? = some endA ∧ pathCost inv p ≤ low then
          (if pathCost inv p < low then runCands inv endA ps ([p], pathCost inv p)
           else runCands inv endA ps (P ++ [p], low))
         else runCands inv endA ps (P, low)) := rfl
    by_cases hl : p.getLast? = some endA
    · have hm : minCostFold inv endA (p :: ps) low =
          minCostFold inv endA ps (min low (pathCost inv p)) := by
        rw [minCostFold_cons, if_pos hl]
      by_cases hlt : pathCost inv p < low
      · rw [hunf, if_pos ⟨hl, le_of_lt hlt⟩, if_pos hlt, ih]
        have hmin : min low (pathCost inv p) = pathCost inv p := by omega
        rw [hm, hmin]
        have hmle : minCostFold inv endA ps (pathCost inv p) ≤ pathCost inv p :=
          minCostFold_le_low inv endA ps _
        have hmlow : minCostFold inv endA ps (pathCost inv p) < low := by omega
        rw [if_pos hmlow, List.nil_append, List.filter_cons]
        rcases lt_or_eq_of_le hmle with hcase | hcase
        · have hne : pathCost inv p ≠ minCostFold inv endA ps (pathCost inv p) := by omega
          rw [if_pos hcase, List.nil_append, if_neg (filterCond_false_cost hne)]
        · have heq2 : pathCost inv p = minCostFold inv endA ps (pathCost inv p) := hcase.symm
          rw [if_neg (by omega), if_pos (filterCond_true hl heq2), List.singleton_append]
      · by_cases hle : pathCost inv p ≤ low
        · have heq : pathCost inv p = low := by omega
          rw [hunf, if_pos ⟨hl, hle⟩, if_neg hlt, ih]
          have hmin : min low (pathCost inv p) = low := by omega
          rw [hm, hmin]
          have hmle : minCostFold inv endA ps low ≤ low := minCostFold_le_low inv endA ps _
          rw [List.filter_cons]
          rcases lt_or_eq_of_le hmle with hcase | hcase
          · have hne : pathCost inv p ≠ minCostFold inv endA ps low := by omega
            rw [if_pos hcase, if_pos hcase, List.nil_append, List.nil_append,
              if_neg (filterCond_false_cost hne)]
          · have heq2 : pathCost inv p = minCostFold inv endA ps low := by omega
            rw [if_neg (by omega), if_neg (by omega), if_pos (filterCond_true hl heq2),
              List.append_assoc, List.singleton_append]
        · rw [hunf, if_neg (fun h => hle h.2), ih]
          have hmin : min low (pathCost inv p) = low := by omega
          rw [hm, hmin]
          have hmle : minCostFold inv endA ps low ≤ low := minCostFold_le_low inv endA ps _
          have hne : pathCost inv p ≠ minCostFold inv endA ps low := by omega
          rw [List.filter_cons, if_neg (filterCond_false_cost hne)]
    · have hm : minCostFold inv endA (p :: ps) low = minCostFold inv endA ps low := by
        rw [minCostFold_cons, if_neg hl]
      rw [hunf, if_neg (fun h => hl h.1), ih, hm]
      rw [List.filter_cons, if_neg (filterCond_false_last hl)]

set_option maxRecDepth 8000 in
theorem find_paths_with_length_spec (inv : AspectInventory) (hwf : inv.wf)
    (start endA : Aspect) (desired : Fin 256) :
    (Solver.new inv).find_paths_with_length start endA desired =
      ⟨(frontierPaths build_aspect_graph inv start ((desired.val + 255) % 256)).filter
          (fun q => decide (q.getLast? = some endA) &&
            decide (pathCost inv q = minCostFold inv endA
              (frontierPaths build_aspect_graph inv start ((desired.val + 255) % 256)) 4294967295)),
        minCostFold inv endA
          (frontierPaths build_aspect_graph inv start ((desired.val + 255) % 256)) 4294967295⟩ := by
  have hR : (desired.val + 255) % 256 ≤ 255 := by omega
  have hcoh : ∀ s ∈ frontiers build_aspect_graph inv start ((desired.val + 255) % 256),
      s.distance = desired ∧ s.path.getLast? = some s.node ∧ s.price = pathCost inv s.path := by
    intro s hs
    obtain ⟨-, -, hlast, -, hprice, -⟩ :=
      frontiers_coherent build_aspect_graph inv hwf start _ hR s hs
    refine ⟨?_, hlast, hprice⟩
    have hd := frontiers_distance build_aspect_graph inv start _ s hs
    have h2 := desired.isLt
    apply Fin.ext
    rw [hd]
    omega
  have h1 : (Solver.new inv).find_paths_with_length start endA desired =
      AspectPaths.mk (solveLoop build_aspect_graph inv desired endA
        [⟨start, 0, 1, [start]⟩] [] 4294967295).1
        (solveLoop build_aspect_graph inv desired endA
        [⟨start, 0, 1, [start]⟩] [] 4294967295).2 := rfl
  rw [h1]
  rw [show ([⟨start, 0, 1, [start]⟩] : List SolverState) =
      frontiers build_aspect_graph inv start 0 from rfl]
  rw [solveLoop_frontiers build_aspect_graph inv start desired endA]
  rw [solveLoop_finals build_aspect_graph inv desired endA _ [] 4294967295 hcoh]
  rw [runCands_spec]
  have hif : (if minCostFold inv endA
      ((frontiers build_aspect_graph inv start ((desired.val + 255) % 256)).map fun s => s.path)
      4294967295 < 4294967295 then ([] : List (List Aspect)) else []) = [] := by
    split <;> rfl
  rw [hif, List.nil_append]
  rfl

theorem chainB_iff (g : AGraph) :
    ∀ p, chainB g p = true ↔ List.Chain' (adjacent g) p
  | [] => by simp [chainB]
  | [x] => by simp [chainB]
  | x :: y :: rest => by
    rw [List.chain'_cons]
    rw [show chainB g (x :: y :: rest) = (decide (y ∈ neighbours g x) && chainB g (y :: rest))
      from rfl]
    rw [Bool.and_eq_true, chainB_iff g (y :: rest)]
    constructor
    · rintro ⟨h1, h2⟩
      exact ⟨of_decide_eq_true h1, h2⟩
    · rintro ⟨h1, h2⟩
      exact ⟨decide_eq_true h1, h2⟩

/-- C1: minimality of the search over the composition graph.  Every walk
with exactly `desired` nodes from `start` to `endA` costs at least the
returned price, and every such walk whose cost equals the returned price
is in the returned path set (all ties are retained). -/
theorem claim_C1 (inv : AspectInventory) (hwf : inv.wf) (start endA : Aspect) (desired : Fin 256)
    (p : List Aspect) (hlen : p.length = desired.val) (hhead : p.head? = some start)
    (hlast : p.getLast? = some endA) (hchain : List.Chain' (adjacent build_aspect_graph) p) :
    ((Solver.new inv).find_paths_with_length start endA desired).price ≤ pathCost inv p ∧
    (pathCost inv p = ((Solver.new inv).find_paths_with_length start endA desired).price →
      p ∈ ((Solver.new inv).find_paths_with_length start endA desired).paths) := by
  have hd0 : 1 ≤ desired.val := by
    by_contra h
    have h0 : desired.val = 0 := by omega
    rw [h0] at hlen
    cases p with
    | nil => cases hhead
    | cons a rest => cases hlen
  have hR : (desired.val + 255) % 256 = desired.val - 1 := by
    have := desired.isLt
    omega
  have hmem : p ∈ frontierPaths build_aspect_graph inv start ((desired.val + 255) % 256) := by
    obtain ⟨s, hs, hsp⟩ := frontiers_complete build_aspect_graph inv hwf start
      ((desired.val + 255) % 256) (by omega) p (by rw [hR]; omega) hhead hchain
    rw [← hsp]
    exact List.mem_map_of_mem _ hs
  rw [find_paths_with_length_spec inv hwf]
  constructor
  · show minCostFold inv endA
        (frontierPaths build_aspect_graph inv start ((desired.val + 255) % 256)) 4294967295 ≤
      pathCost inv p
    exact minCostFold_le_mem inv endA _ _ p hmem hlast
  · intro hceq
    show p ∈ List.filter _ _
    rw [List.mem_filter]
    exact ⟨hmem, filterCond_true hlast hceq⟩

set_option maxRecDepth 10000 in
/-- Witness for C1: the walk `[Aer, Vacuos, Aer]` at length 3 with the
empty inventory. -/
theorem claim_C1_witness :
    invEmpty.wf ∧
    [Aspect.Aer, Aspect.Vacuos, Aspect.Aer].length = (3 : Fin 256).val ∧
    [Aspect.Aer, Aspect.Vacuos, Aspect.Aer].head? = some Aspect.Aer ∧
    [Aspect.Aer, Aspect.Vacuos, Aspect.Aer].getLast? = some Aspect.Aer ∧
    List.Chain' (adjacent build_aspect_graph) [Aspect.Aer, Aspect.Vacuos, Aspect.Aer] ∧
    (((Solver.new invEmpty).find_paths_with_length Aspect.Aer Aspect.Aer 3).price ≤
        pathCost invEmpty [Aspect.Aer, Aspect.Vacuos, Aspect.Aer] ∧
      (pathCost invEmpty [Aspect.Aer, Aspect.Vacuos, Aspect.Aer] =
          ((Solver.new invEmpty).find_paths_with_length Aspect.Aer Aspect.Aer 3).price →
        [Aspect.Aer, Aspect.Vacuos, Aspect.Aer] ∈
          ((Solver.new invEmpty).find_paths_with_length Aspect.Aer Aspect.Aer 3).paths)) :=
  ⟨by decide, by decide, by decide, by decide,
    (chainB_iff build_aspect_graph [Aspect.Aer, Aspect.Vacuos, Aspect.Aer]).mp (by decide),
    claim_C1 invEmpty (by decide) Aspect.Aer Aspect.Aer 3
      [Aspect.Aer, Aspect.Vacuos, Aspect.Aer] (by decide) (by decide) (by decide)
      ((chainB_iff build_aspect_graph [Aspect.Aer, Aspect.Vacuos, Aspect.Aer]).mp (by decide))⟩

/-- C2 (amended): for every requested length of at least 1, every
returned path has exactly that many nodes, starts at `start`, ends at
`endA`, and every consecutive pair is an edge of the composition graph.
(At requested length 0 the `u8` distance counter wraps and the search
returns 256-node walks instead.) -/
theorem claim_C2_amended (inv : AspectInventory) (hwf : inv.wf) (start endA : Aspect)
    (desired : Fin 256) (hpos : 1 ≤ desired.val) :
    ∀ p ∈ ((Solver.new inv).find_paths_with_length start endA desired).paths,
      p.length = desired.val ∧ p.head? = some start ∧ p.getLast? = some endA ∧
      List.Chain' (adjacent build_aspect_graph) p := by
  rw [find_paths_with_length_spec inv hwf]
  intro p hp
  obtain ⟨hmem, hcond⟩ := List.mem_filter.mp hp
  obtain ⟨s, hs, hsp⟩ := List.mem_map.mp hmem
  have hR : (desired.val + 255) % 256 ≤ 255 := by omega
  obtain ⟨hlen, hhead, -, hchain, -, -⟩ :=
    frontiers_coherent build_aspect_graph inv hwf start _ hR s hs
  have hRv : (desired.val + 255) % 256 = desired.val - 1 := by
    have := desired.isLt
    omega
  rw [Bool.and_eq_true] at hcond
  obtain ⟨hd1, -⟩ := hcond
  refine ⟨?_, ?_, of_decide_eq_true hd1, ?_⟩
  · rw [← hsp, hlen, hRv]
    omega
  · rw [← hsp]
    exact hhead
  · rw [← hsp]
    exact hchain

/-- Witness for C2 (amended) at length 3 with the empty inventory. -/
theorem claim_C2_witness :
    invEmpty.wf ∧ 1 ≤ (3 : Fin 256).val ∧
    ∀ p ∈ ((Solver.new invEmpty).find_paths_with_length Aspect.Aer Aspect.Ordo 3).paths,
      p.length = (3 : Fin 256).val ∧ p.head? = some Aspect.Aer ∧ p.getLast? = some Aspect.Ordo ∧
      List.Chain' (adjacent build_aspect_graph) p :=
  ⟨by decide, by decide,
    claim_C2_amended invEmpty (by decide) Aspect.Aer Aspect.Ordo 3 (by decide)⟩

theorem price_of_invEmpty (a : Aspect) : invEmpty.price_of a = 65535 := rfl

theorem pathCost_invEmpty (q : List Aspect) :
    pathCost invEmpty q = (q.length - 1) * 65535 := by
  unfold pathCost
  rw [sum_map_const _ _ 65535 (fun x _ => price_of_invEmpty x), List.length_drop]

set_option maxRecDepth 10000 in
theorem longWalk_chain : List.Chain' (adjacent build_aspect_graph) longWalk :=
  (chainB_iff build_aspect_graph longWalk).mp (by decide)

theorem longWalk_mem_frontier :
    longWalk ∈ frontierPaths build_aspect_graph invEmpty Aspect.Aer 255 := by
  obtain ⟨s, hs, hsp⟩ := frontiers_complete build_aspect_graph invEmpty (by decide) Aspect.Aer
    255 (by decide) longWalk (by decide) (by decide) longWalk_chain
  rw [← hsp]
  exact List.mem_map_of_mem _ hs

theorem frontier255_cost (q : List Aspect)
    (hq : q ∈ frontierPaths build_aspect_graph invEmpty Aspect.Aer 255) :
    pathCost invEmpty q = 255 * 65535 := by
  obtain ⟨s, hs, hsp⟩ := List.mem_map.mp hq
  obtain ⟨hlen, -, -, -, -, -⟩ :=
    frontiers_coherent build_aspect_graph invEmpty (by decide) Aspect.Aer 255 (by decide) s hs
  rw [← hsp, pathCost_invEmpty, hlen]

theorem minCost0 :
    minCostFold invEmpty Aspect.Aer
      (frontierPaths build_aspect_graph invEmpty Aspect.Aer 255) 4294967295 = 255 * 65535 := by
  apply Nat.le_antisymm
  · have h := minCostFold_le_mem invEmpty Aspect.Aer
      (frontierPaths build_aspect_graph invEmpty Aspect.Aer 255) 4294967295 longWalk
      longWalk_mem_frontier (by decide)
    rw [frontier255_cost longWalk longWalk_mem_frontier] at h
    exact h
  · apply le_minCostFold invEmpty Aspect.Aer _ _ _ (by norm_num)
    intro p hp _
    rw [frontier255_cost p hp]

theorem longWalk_mem_paths :
    longWalk ∈ ((Solver.new invEmpty).find_paths_with_length Aspect.Aer Aspect.Aer 0).paths := by
  have hpaths : ((Solver.new invEmpty).find_paths_with_length Aspect.Aer Aspect.Aer 0).paths =
      (frontierPaths build_aspect_graph invEmpty Aspect.Aer 255).filter
        (fun q => decide (q.getLast? = some Aspect.Aer) &&
          decide (pathCost invEmpty q = minCostFold invEmpty Aspect.Aer
            (frontierPaths build_aspect_graph invEmpty Aspect.Aer 255) 4294967295)) := by
    rw [find_paths_with_length_spec invEmpty (by decide)]
    have hR : (((0 : Fin 256)).val + 255) % 256 = 255 := by decide
    rw [hR]
  rw [hpaths, List.mem_filter]
  refine ⟨longWalk_mem_frontier, filterCond_true (by decide) ?_⟩
  rw [minCost0, frontier255_cost longWalk longWalk_mem_frontier]

/-- C2 counterexample: with requested length 0 the `u8` distance counter
wraps around, and the solver returns walks of 256 nodes, whose length is
not the requested 0. -/
theorem claim_C2_counterexample :
    ∃ p ∈ ((Solver.new invEmpty).find_paths_with_length Aspect.Aer Aspect.Aer 0).paths,
      p.length ≠ ((0 : Fin 256)).val :=
  ⟨longWalk, longWalk_mem_paths, by decide⟩

/-- C7 (amended): for every requested length of at least 1, if no walk of
exactly that many nodes from `start` over the composition graph ends at
`endA`, the solver returns the empty path set paired with the `u32::MAX`
sentinel price.  (At requested length 0 the distance counter wraps, so the
result can be non-empty even though no 0-node walk exists.) -/
theorem claim_C7_amended (inv : AspectInventory) (hwf : inv.wf) (start endA : Aspect)
    (desired : Fin 256) (hpos : 1 ≤ desired.val)
    (hnone : ∀ p : List Aspect, p.length = desired.val → p.head? = some start →
      List.Chain' (adjacent build_aspect_graph) p → p.getLast? ≠ some endA) :
    (Solver.new inv).find_paths_with_length start endA desired = ⟨[], 4294967295⟩ := by
  rw [find_paths_with_length_spec inv hwf]
  have hRv : (desired.val + 255) % 256 = desired.val - 1 := by
    have := desired.isLt
    omega
  have hend : ∀ q ∈ frontierPaths build_aspect_graph inv start ((desired.val + 255) % 256),
      q.getLast? ≠ some endA := by
    intro q hq
    obtain ⟨s, hs, hsp⟩ := List.mem_map.mp hq
    obtain ⟨hlen, hhead, -, hchain, -, -⟩ :=
      frontiers_coherent build_aspect_graph inv hwf start _ (by omega) s hs
    refine hnone q ?_ ?_ ?_
    · rw [← hsp, hlen, hRv]
      omega
    · rw [← hsp]
      exact hhead
    · rw [← hsp]
      exact hchain
  have hmin : minCostFold inv endA
      (frontierPaths build_aspect_graph inv start ((desired.val + 255) % 256)) 4294967295 =
      4294967295 :=
    minCostFold_no_end inv endA _ _ hend
  rw [hmin]
  congr 1
  rw [List.filter_eq_nil_iff]
  intro q hq
  exact filterCond_false_last (hend q hq)

/-- Witness for C7 (amended): `Primordium` has no neighbours in the
composition graph, so no 2-node walk starts there and the query returns
the empty result with the sentinel price. -/
theorem claim_C7_witness :
    invEmpty.wf ∧ 1 ≤ ((2 : Fin 256)).val ∧
    (Solver.new invEmpty).find_paths_with_length Aspect.Primordium Aspect.Aer 2 =
      ⟨[], 4294967295⟩ :=
  ⟨by decide, by decide,
    claim_C7_amended invEmpty (by decide) Aspect.Primordium Aspect.Aer 2 (by decide) (by
      intro p hlen hhead hchain
      have hlen2 : p.length = 2 := hlen
      match p, hlen2 with
      | [a, b], _ =>
        have ha : a = Aspect.Primordium := Option.some.inj hhead
        have hadj : adjacent build_aspect_graph a b := (List.chain'_cons.mp hchain).1
        rw [ha] at hadj
        have hnb : neighbours build_aspect_graph Aspect.Primordium = [] := by decide
        intro _
        rw [show adjacent build_aspect_graph Aspect.Primordium b =
          (b ∈ neighbours build_aspect_graph Aspect.Primordium) from rfl, hnb] at hadj
        cases hadj)⟩

/-- C7 counterexample: with requested length 0 no walk of 0 nodes from
`Aer` exists at all, yet the returned path set is non-empty (the distance
counter wraps and 256-node walks are returned). -/
theorem claim_C7_counterexample :
    (∀ p : List Aspect, p.length = ((0 : Fin 256)).val → p.head? ≠ some Aspect.Aer) ∧
    ((Solver.new invEmpty).find_paths_with_length Aspect.Aer Aspect.Aer 0).paths ≠ [] := by
  constructor
  · intro p hlen
    have hlen0 : p.length = 0 := hlen
    rw [List.length_eq_zero.mp hlen0]
    intro h
    cases h
  · intro hnil
    have hmem := longWalk_mem_paths
    rw [hnil] at hmem
    cases hmem

/-- C8: along the search frontier no cost accumulation overflows: each
explored state's `u32` accumulated price equals the exact mathematical sum
of the `u16` prices of the nodes on its path after the start, and is
bounded by `255 * 65535`, far below `2^32`. -/
theorem claim_C8 (inv : AspectInventory) (hwf : inv.wf) (start : Aspect) (k : Nat)
    (hk : k ≤ 255) (s : SolverState) (hs : s ∈ frontiers build_aspect_graph inv start k) :
    s.price = ((s.path.drop 1).map inv.price_of).sum ∧ s.price ≤ 255 * 65535 := by
  obtain ⟨-, -, -, -, hprice, hbound⟩ :=
    frontiers_coherent build_aspect_graph inv hwf start k hk s hs
  constructor
  · exact hprice
  · exact le_trans hbound (Nat.mul_le_mul_right 65535 hk)

/-- Witness for C8 at the state one step from `Aer` with the empty
inventory. -/
theorem claim_C8_witness :
    invEmpty.wf ∧ (1 : Nat) ≤ 255 ∧
    (⟨Aspect.Vacuos, 65535, 2, [Aspect.Aer, Aspect.Vacuos]⟩ : SolverState) ∈
      frontiers build_aspect_graph invEmpty Aspect.Aer 1 ∧
    ((⟨Aspect.Vacuos, 65535, 2, [Aspect.Aer, Aspect.Vacuos]⟩ : SolverState).price =
        ((((⟨Aspect.Vacuos, 65535, 2, [Aspect.Aer, Aspect.Vacuos]⟩ :
          SolverState)).path.drop 1).map invEmpty.price_of).sum ∧
      (⟨Aspect.Vacuos, 65535, 2, [Aspect.Aer, Aspect.Vacuos]⟩ : SolverState).price ≤
        255 * 65535) :=
  ⟨by decide, by decide, by decide,
    claim_C8 invEmpty (by decide) Aspect.Aer 1 (by decide)
      ⟨Aspect.Vacuos, 65535, 2, [Aspect.Aer, Aspect.Vacuos]⟩ (by decide)⟩
